/-
  Verification of the conversion-plan builder and applier in
  src/include/hobbes/convert.H (namespace hobbes::convert).

  The development shallowly embeds the code: the dynamic type descriptor
  (ty::desc) is the inductive TypeDesc; the statically known destination
  type (the template parameter of into<T>) is the inductive CTarget; a
  built conversion plan (convFn<T>::type) is a function from a source
  byte buffer to the converted structural value; plan construction
  (into<T>::from) is buildPlan, returning Except ConvError Plan exactly
  where the code throws std::runtime_error.

  The descriptor model itself, ty::show, ty::sizeOf, ty::alignOf and
  alignTo live in reflect.H, which is not part of the sources given;
  those definitions are modelled from the spec (see their doc comments).
-/
import Mathlib

set_option maxHeartbeats 1000000

/-
  ## Primitive destination types

  One constructor per template instantiation of into<To> in lines 78-93
  of convert.H (the Darwin-only long/size_t aliases are platform
  synonyms and not modelled).  char is taken as signed, as on the
  mainstream platforms hobbes targets.
-/
inductive CPrim where
  | cbool | cchar | cu8 | ci16 | cu16 | ci32 | cu32 | ci64 | cu64 | cf32 | cf64
deriving DecidableEq, Repr

/-- The ToName string of each SCAST_CONVERT instantiation (lines 78-93). -/
def primName : CPrim → String
  | .cbool => "bool"
  | .cchar => "char"
  | .cu8 => "byte"
  | .ci16 => "short"
  | .cu16 => "short"
  | .ci32 => "int"
  | .cu32 => "int"
  | .ci64 => "long"
  | .cu64 => "long"
  | .cf32 => "float"
  | .cf64 => "double"

/-- Byte width of each primitive destination type. -/
def primWidth : CPrim → Nat
  | .cbool => 1
  | .cchar => 1
  | .cu8 => 1
  | .ci16 => 2
  | .cu16 => 2
  | .ci32 => 4
  | .cu32 => 4
  | .ci64 => 8
  | .cu64 => 8
  | .cf32 => 4
  | .cf64 => 8

/-- Whether the in-memory integral representation is twos-complement signed. -/
def primSigned : CPrim → Bool
  | .cchar => true
  | .ci16 => true
  | .ci32 => true
  | .ci64 => true
  | _ => false

/--
  The accepted widening sources of each destination type: the From...
  argument list of its SCAST_CONVERT instantiation (lines 80-93), in
  chain order.  Each entry is the source primitive name together with
  the C++ type the macro reinterprets the source bytes as.
-/
def widenings : CPrim → List (String × CPrim)
  | .cbool => []
  | .cchar => []
  | .cu8 => [("char", .cchar)]
  | .ci16 => [("char", .cchar), ("byte", .cu8)]
  | .cu16 => [("char", .cchar), ("byte", .cu8)]
  | .ci32 => [("char", .cchar), ("byte", .cu8), ("short", .ci16)]
  | .cu32 => [("char", .cchar), ("byte", .cu8), ("short", .ci16)]
  | .ci64 => [("char", .cchar), ("byte", .cu8), ("short", .ci16), ("int", .ci32)]
  | .cu64 => [("char", .cchar), ("byte", .cu8), ("short", .ci16), ("int", .ci32)]
  | .cf32 => [("char", .cchar), ("byte", .cu8), ("short", .ci16), ("int", .ci32)]
  | .cf64 => [("char", .cchar), ("byte", .cu8), ("short", .ci16), ("int", .ci32),
              ("long", .ci64), ("float", .cf32)]

/-- The source-name column of the accepted widening set. -/
def acceptedNames (dst : CPrim) : List String := (widenings dst).map (fun e => e.1)

/--
  The mathematical value of an integral primitive stored as the given
  bit pattern (twos complement for the signed types).
-/
def decodeInt (p : CPrim) (bits : Nat) : Int :=
  let w := 8 * primWidth p
  let b := bits % 2 ^ w
  if primSigned p ∧ 2 ^ (w - 1) ≤ b then (b : Int) - 2 ^ w else (b : Int)

/-- Whether the integer v is representable in the value range of the type. -/
def inRange (p : CPrim) (v : Int) : Prop :=
  if primSigned p then
    -(2 ^ (8 * primWidth p - 1)) ≤ v ∧ v < 2 ^ (8 * primWidth p - 1)
  else
    0 ≤ v ∧ v < 2 ^ (8 * primWidth p)

instance (p : CPrim) (v : Int) : Decidable (inRange p v) := by
  unfold inRange; split <;> infer_instance

/--
  Round an integer to the nearest value with at most prec significant
  binary digits, ties to even: the value static_cast produces when an
  integer is converted to a binary floating type of precision prec.
-/
def roundInt (prec : Nat) (v : Int) : Int :=
  let n := v.natAbs
  let k := Nat.log 2 n
  if k < prec then v
  else
    let e := k + 1 - prec
    let q := n / 2 ^ e
    let r := n % 2 ^ e
    let q' := if 2 * r > 2 ^ e ∨ (2 * r = 2 ^ e ∧ q % 2 = 1) then q + 1 else q
    v.sign * (q' * 2 ^ e : Nat)

/--
  IEEE-754 bit pattern (p mantissa bits, sign at bit sbit, exponent
  bias bias) of an integer whose magnitude has at most p+1 significant
  bits, i.e. of an exactly representable integer.  Used to model the
  result patterns of static_cast to float (p = 23) and double (p = 52)
  after rounding.
-/
def encodeFPInt (p sbit bias : Nat) (v : Int) : Nat :=
  if v = 0 then 0
  else
    let n := v.natAbs
    let k := Nat.log 2 n
    let m := if k ≤ p then n * 2 ^ (p - k) else n / 2 ^ (k - p)
    (if v < 0 then 2 ^ sbit else 0) + (k + bias) * 2 ^ p + (m - 2 ^ p)

/--
  The rational value denoted by an IEEE-754 bit pattern with p mantissa
  bits, ebits exponent bits and the given bias; none for the reserved
  exponent (infinities and NaNs).
-/
def decodeFP (p ebits bias : Nat) (pat : Nat) : Option ℚ :=
  let s := pat / 2 ^ (p + ebits) % 2
  let E := pat / 2 ^ p % 2 ^ ebits
  let m := pat % 2 ^ p
  if E = 2 ^ ebits - 1 then none
  else
    some ((if s = 1 then (-1 : ℚ) else 1) *
      (if E = 0 then (m : ℚ) * (2 : ℚ) ^ ((1 : ℤ) - bias - p)
       else ((2 ^ p + m : ℕ) : ℚ) * (2 : ℚ) ^ ((E : ℤ) - bias - p)))

/--
  The binary64 pattern holding the same value as a given binary32
  pattern: the bit-level effect of static_cast from float to double
  (sign copied, exponent rebiased, mantissa widened; subnormal floats
  renormalize, the reserved exponent maps to the reserved exponent).
-/
def f32ToF64bits (pat : Nat) : Nat :=
  let s := pat / 2 ^ 31 % 2
  let E := pat / 2 ^ 23 % 256
  let m := pat % 2 ^ 23
  if E = 255 then s * 2 ^ 63 + 2047 * 2 ^ 52 + m * 2 ^ 29
  else if E = 0 then
    if m = 0 then s * 2 ^ 63
    else
      let k := Nat.log 2 m
      s * 2 ^ 63 + (k + 874) * 2 ^ 52 + (m - 2 ^ k) * 2 ^ (52 - k)
  else s * 2 ^ 63 + (E + 896) * 2 ^ 52 + m * 2 ^ 29

/--
  The destination bit pattern produced by the widening branch of the
  SCAST_CONVERT macro (line 59 of convert.H):
  static_cast of the value read as the tabulated source type.
  Integral destinations store the value modulo their width, float and
  double destinations store the rounded value, float to double is exact.
-/
def castBits (dst src : CPrim) (bits : Nat) : Nat :=
  match dst, src with
  | .cf64, .cf32 => f32ToF64bits bits
  | .cf32, f => encodeFPInt 23 31 127 (roundInt 24 (decodeInt f bits))
  | .cf64, f => encodeFPInt 52 63 1023 (roundInt 53 (decodeInt f bits))
  | t, f => ((decodeInt f bits) % (2 ^ (8 * primWidth t))).toNat

/-
  ## The dynamic type descriptor (ty::desc)

  Modelled from the spec: reflect.H is not among the given sources.
  Spec section 3 gives the shape: Primitive by name, FixedArray with an
  element descriptor and a length, Struct with ordered named fields
  carrying source offsets, Variant with ordered named constructors
  carrying uint32 tags.  convert.H additionally requires the array
  length to be a dedicated size node (PRIV_HPPF_TYCTOR_SIZE, checked at
  line 108), so lengths are descriptors themselves and the size node is
  the nat constructor.
-/
inductive TypeDesc where
  | prim (name : String)
  | nat (n : Nat)
  | farr (elem : TypeDesc) (len : TypeDesc)
  | struct (fields : List (String × Nat × TypeDesc))
  | variant (ctors : List (String × Nat × TypeDesc))

mutual
/--
  Modelled from the spec: ty::show of reflect.H, the textual rendering
  of a descriptor carried inside error messages.  The spec fixes only
  that a rendering of the descriptor is carried, not its format.
-/
def tyShow : TypeDesc → String
  | .prim s => s
  | .nat n => "|" ++ toString n ++ "|"
  | .farr e l => "[:" ++ tyShow e ++ " x " ++ tyShow l ++ ":]"
  | .struct fs => "\x7b" ++ rowsShow fs ++ "\x7d"
  | .variant cs => "|" ++ rowsShow cs ++ "|"

/-- Modelled from the spec: rendering of the rows of a struct or variant. -/
def rowsShow : List (String × Nat × TypeDesc) → String
  | [] => ""
  | [(n, _, t)] => n ++ ":" ++ tyShow t
  | (n, _, t) :: r :: rs => n ++ ":" ++ tyShow t ++ ", " ++ rowsShow (r :: rs)
end

/--
  Modelled from the spec: alignTo of reflect.H, used at line 289;
  section 4.5 calls it align(4, maxAlignment), rounding the fixed
  4-byte tag width up to a multiple of the alignment.
-/
def alignTo (x a : Nat) : Nat := ((x + a - 1) / a) * a

mutual
/--
  Modelled from the spec: ty::sizeOf of reflect.H, the byte size of a
  value encoded as the descriptor describes (a derived query the spec
  in section 6 assumes provided by the reflection subsystem).
  Primitive widths follow the table of section 4.2; a fixed array is
  element size times length; a struct extends to the furthest field
  end; a variant stores its payloads after the aligned 4-byte tag.
-/
def sizeOfTy : TypeDesc → Nat
  | .prim s =>
      if s = "bool" ∨ s = "char" ∨ s = "byte" then 1
      else if s = "short" then 2
      else if s = "int" ∨ s = "float" then 4
      else if s = "long" ∨ s = "double" then 8
      else 0
  | .nat _ => 0
  | .farr e l => (match l with | .nat n => n | _ => 0) * sizeOfTy e
  | .struct fs => fieldsEnd fs
  | .variant cs => alignTo 4 (ctorsAlign cs) + ctorsSize cs

/-- Modelled from the spec: the furthest field end of a struct descriptor. -/
def fieldsEnd : List (String × Nat × TypeDesc) → Nat
  | [] => 0
  | (_, off, t) :: fs => max (off + sizeOfTy t) (fieldsEnd fs)

/-- Modelled from the spec: the largest payload size of a variant descriptor. -/
def ctorsSize : List (String × Nat × TypeDesc) → Nat
  | [] => 0
  | (_, _, t) :: cs => max (sizeOfTy t) (ctorsSize cs)

/--
  Modelled from the spec: ty::alignOf of reflect.H, the alignment
  requirement of a value encoded as the descriptor describes (primitive
  alignments equal their sizes, aggregates take the largest member
  alignment, a variant is at least tag-aligned).
-/
def alignOfTy : TypeDesc → Nat
  | .prim s =>
      if s = "bool" ∨ s = "char" ∨ s = "byte" then 1
      else if s = "short" then 2
      else if s = "int" ∨ s = "float" then 4
      else if s = "long" ∨ s = "double" then 8
      else 1
  | .nat _ => 1
  | .farr e _ => alignOfTy e
  | .struct fs => fieldsAlign fs
  | .variant cs => max 4 (ctorsAlign cs)

/-- Modelled from the spec: the largest field alignment of a struct descriptor. -/
def fieldsAlign : List (String × Nat × TypeDesc) → Nat
  | [] => 1
  | (_, _, t) :: fs => max (alignOfTy t) (fieldsAlign fs)

/-- Modelled from the spec: the largest payload alignment of a variant descriptor. -/
def ctorsAlign : List (String × Nat × TypeDesc) → Nat
  | [] => 1
  | (_, _, t) :: cs => max (alignOfTy t) (ctorsAlign cs)
end

/-
  ## The statically known destination type

  One constructor per into<> specialization family of convert.H:
  a primitive destination (lines 78-93), std::array (line 101), an
  hmeta struct (line 217, with fields in declaration order) and an
  hmeta variant (line 314, with constructors carrying their
  _hmeta_ctor_id destination tag ids).
-/
inductive CTarget where
  | prim (p : CPrim)
  | arr (elem : CTarget) (n : Nat)
  | record (fields : List (String × CTarget))
  | union (ctors : List (String × Nat × CTarget))

/-- Modelled from the spec: hobbes::string::demangle of the target type,
  the destination-side name carried inside some error messages. -/
def primTargetName : CPrim → String
  | .cbool => "bool"
  | .cchar => "char"
  | .cu8 => "unsigned char"
  | .ci16 => "short"
  | .cu16 => "unsigned short"
  | .ci32 => "int"
  | .cu32 => "unsigned int"
  | .ci64 => "long"
  | .cu64 => "unsigned long"
  | .cf32 => "float"
  | .cf64 => "double"

/-- Modelled from the spec: demangled name of a non-primitive target type. -/
def targetName : CTarget → String
  | .prim p => primTargetName p
  | .arr e n => "std::array<" ++ targetName e ++ ", " ++ toString n ++ ">"
  | .record _ => "struct"
  | .union _ => "variant"

/-
  ## Buffers, converted values and plans

  A source buffer is a total byte map; plans read it at computed
  offsets, mirroring the pointer arithmetic of convert.H.  The
  destination is the structural value the plan writes: a primitive
  destination holds its raw destination bit pattern, a record holds its
  fields in declaration order, a union holds the written destination
  tag id and payload.  Applying a plan is total except for the variant
  dispatch-table lookup miss of line 260, which the C++ leaves
  unchecked (see spec section 7); the model returns none there.
-/
abbrev Bytes := Nat → Nat

/-- Pointer arithmetic: the buffer advanced by k bytes. -/
def shiftBuf (b : Bytes) (k : Nat) : Bytes := fun i => b (i + k)

/-- Little-endian read of w bytes from the start of the buffer. -/
def readLE (b : Bytes) : Nat → Nat
  | 0 => 0
  | w + 1 => b 0 % 256 + 256 * readLE (shiftBuf b 1) w

/-- A buffer with the given leading bytes and zeros beyond. -/
def bytesOf (l : List Nat) : Bytes := fun i => l.getD i 0

/-- The structural destination value a plan writes. -/
inductive Value where
  | prim (pattern : Nat)
  | arr (elems : List Value)
  | record (fields : List Value)
  | union (ctorId : Nat) (payload : Value)

/-- A built conversion plan: convFn<T>::type of convert.H line 33. -/
abbrev Plan := Bytes → Option Value

/--
  The failures buildPlan can raise, each a std::runtime_error in the
  C++; the constructors follow the error-kind names of spec section 7
  and carry exactly the data the corresponding message interpolates
  (the struct and variant kind mismatches of lines 223 and 320 carry no
  destination type name, hence the Option).
-/
inductive ConvError where
  | KindMismatch (rendering : String) (destName : Option String)
  | UnknownPrimitive (rendering : String) (destName : String)
  | InvalidLengthDescriptor (rendering : String)
  | LengthMismatch (rendering : String) (destName : String)
  | MissingField (fieldName : String)
deriving DecidableEq, Repr

/--
  Primitive plan construction: into<To>::from of the SCAST_CONVERT
  macros (lines 41-93).  A non-primitive descriptor fails (line 47);
  the matching name gives the identity byte copy (line 50/70); a name
  in the widening chain gives the static_cast (line 59); anything else
  fails with the no-conversion error (line 52/73).
-/
def buildPrim (dst : CPrim) (d : TypeDesc) : Except ConvError Plan :=
  match d with
  | .prim s =>
      if s = primName dst then
        .ok (fun b => some (.prim (readLE b (primWidth dst))))
      else
        match (widenings dst).find? (fun e => e.1 == s) with
        | some e => .ok (fun b => some (.prim (castBits dst e.2 (readLE b (primWidth e.2)))))
        | none => .error (.UnknownPrimitive (tyShow d) (primTargetName dst))
  | _ => .error (.KindMismatch (tyShow d) (some (primTargetName dst)))

/-- MakeStructConvF::namedField (line 183): first descriptor field of the name. -/
def findField (dfs : List (String × Nat × TypeDesc)) (fname : String) :
    Option (String × Nat × TypeDesc) :=
  dfs.find? (fun e => e.1 == fname)

/-- MakeVariantConvF::namedCtor (line 303): first descriptor ctor of the name. -/
def findCtor (dcs : List (String × Nat × TypeDesc)) (cname : String) :
    Option (String × Nat × TypeDesc) :=
  dcs.find? (fun e => e.1 == cname)

/--
  The state MakeVariantConvF::init threads through VariantConvF (lines
  247-263): the tag dispatch table, the shared source payload offset
  and the running maximum payload alignment; constructed at line 256
  with offset 4 and alignment 1.
-/
structure VariantConv where
  ctors : List (Nat × Nat × Plan)
  srcPayloadOffset : Nat
  maxAlign : Nat

/-- unordered_map insertion (line 292): replace the entry of the key or append. -/
def insertTag : List (Nat × Nat × Plan) → Nat → Nat × Plan → List (Nat × Nat × Plan)
  | [], tag, v => [(tag, v)]
  | e :: l, tag, v => if e.1 = tag then (tag, v) :: l else e :: insertTag l tag v

/-- unordered_map lookup (line 260): the entry stored at the key, if any. -/
def lookupTag : List (Nat × Nat × Plan) → Nat → Option (Nat × Plan)
  | [], _ => none
  | e :: l, tag => if e.1 = tag then some e.2 else lookupTag l tag

/--
  The fixed-array apply loop (lines 116-121): slot i converts from the
  source cursor after i advances of the element stride.
-/
def applyArr (ep : Plan) (step n : Nat) : Plan := fun b =>
  ((List.range n).mapM (fun i => ep (shiftBuf b (i * step)))).map Value.arr

/--
  ApplyStructConvF::apply (lines 205-215): each field conversion reads
  at its captured source offset and fills its destination field.
-/
def applyStruct (entries : List (Nat × Plan)) : Plan := fun b =>
  (entries.mapM (fun (e : Nat × Plan) => e.2 (shiftBuf b e.1))).map Value.record

/--
  VariantConvF::apply (lines 259-262): read the leading 4-byte tag,
  look it up in the dispatch table, write the destination tag id and
  convert the payload at the shared source payload offset.  The C++
  dereferences a missed lookup unchecked; the model returns none.
-/
def applyVariant (vc : VariantConv) : Plan := fun b =>
  match lookupTag vc.ctors (readLE b 4) with
  | none => none
  | some cp => (cp.2 (shiftBuf b vc.srcPayloadOffset)).map (Value.union cp.1)

mutual
/--
  The conversion-plan builder: the into<T>::from family of convert.H,
  dispatched on the target type exactly as template specialization
  does.  Primitive targets delegate to buildPrim; array targets check
  the descriptor kind (line 106), the size node (line 108) and the
  length (line 110) and capture the element plan and stride (lines
  113-121); record targets check the kind (line 222) and build the
  field table (line 230); union targets check the kind (line 319) and
  build the dispatch table (line 326).
-/
def buildPlan : CTarget → TypeDesc → Except ConvError Plan
  | .prim p, d => buildPrim p d
  | .arr eT n, d =>
      match d with
      | .farr ed ld =>
          match ld with
          | .nat m =>
              if m = n then
                match buildPlan eT ed with
                | .ok ep => .ok (applyArr ep (sizeOfTy ed) n)
                | .error err => .error err
              else .error (.LengthMismatch (tyShow (.farr ed ld)) (targetName (.arr eT n)))
          | _ => .error (.InvalidLengthDescriptor (tyShow (.farr ed ld)))
      | _ => .error (.KindMismatch (tyShow d) (some (targetName (.arr eT n))))
  | .record fs, d =>
      match d with
      | .struct dfs =>
          match buildFields fs dfs with
          | .ok entries => .ok (applyStruct entries)
          | .error err => .error err
      | _ => .error (.KindMismatch (tyShow d) none)
  | .union cs, d =>
      match d with
      | .variant dcs =>
          match buildCtors cs dcs ⟨[], 4, 1⟩ with
          | .ok vc => .ok (applyVariant vc)
          | .error err => .error err
      | _ => .error (.KindMismatch (tyShow d) none)

/--
  MakeStructConvF::init (lines 167-191): walk destination fields in
  declaration order; a missing name aborts with the MissingField error
  (line 189), otherwise the matched field contributes its source
  offset and recursively built plan.
-/
def buildFields : List (String × CTarget) → List (String × Nat × TypeDesc) →
    Except ConvError (List (Nat × Plan))
  | [], _ => .ok []
  | (fname, fty) :: fs, dfs =>
      match findField dfs fname with
      | none => .error (.MissingField fname)
      | some (_, off, dty) =>
          match buildPlan fty dty with
          | .ok p =>
              match buildFields fs dfs with
              | .ok rest => .ok ((off, p) :: rest)
              | .error err => .error err
          | .error err => .error err

/--
  MakeVariantConvF::init (lines 281-311): walk destination ctors in
  declaration order; an unmatched name is skipped (line 287), a
  matched one raises the running alignment and the shared payload
  offset (lines 288-289) and registers the destination tag id and
  recursively built payload plan under the source tag (line 292).
-/
def buildCtors : List (String × Nat × CTarget) → List (String × Nat × TypeDesc) →
    VariantConv → Except ConvError VariantConv
  | [], _, st => .ok st
  | (cname, cid, cty) :: cs, dcs, st =>
      match findCtor dcs cname with
      | none => buildCtors cs dcs st
      | some (_, tag, pdesc) =>
          let ma := max st.maxAlign (alignOfTy pdesc)
          match buildPlan cty pdesc with
          | .ok p => buildCtors cs dcs ⟨insertTag st.ctors tag (cid, p), alignTo 4 ma, ma⟩
          | .error err => .error err
end

/-- Build a plan and apply it to one buffer. -/
def runConv (t : CTarget) (d : TypeDesc) (b : Bytes) : Except ConvError (Option Value) :=
  (buildPlan t d).map (fun p => p b)

/-- Whether plan construction succeeded. -/
def okB {α : Type} (e : Except ConvError α) : Bool :=
  match e with
  | .ok _ => true
  | .error _ => false

/--
  A plan reads only the first sz bytes of its buffer: buffers agreeing
  there convert identically.
-/
def PlanFrame (sz : Nat) (p : Plan) : Prop :=
  ∀ b₁ b₂ : Bytes, (∀ j, j < sz → b₁ j = b₂ j) → p b₁ = p b₂

/--
  The running maximum payload alignment MakeVariantConvF::init reaches:
  alignments of the name-matched constructors folded over the initial
  value 1 of line 256.
-/
def matchedMaxAlign (cs : List (String × Nat × CTarget))
    (dcs : List (String × Nat × TypeDesc)) : Nat :=
  cs.foldl (fun acc c =>
    match findCtor dcs c.1 with
    | some (_, _, pd) => max acc (alignOfTy pd)
    | none => acc) 1

/-- A source tag for which some destination ctor put a dispatch entry in the table. -/
def matchedTag (cs : List (String × Nat × CTarget))
    (dcs : List (String × Nat × TypeDesc)) (tag : Nat) : Prop :=
  ∃ c ∈ cs, ∃ pd, findCtor dcs c.1 = some (c.1, tag, pd)

/-- The source byte regions (offset, size) of the destination fields, in order. -/
def fieldRegions (fs : List (String × CTarget))
    (dfs : List (String × Nat × TypeDesc)) : List (Nat × Nat) :=
  fs.filterMap (fun f => (findField dfs f.1).map (fun e => (e.2.1, sizeOfTy e.2.2)))

/-- Pairwise disjointness of half-open byte regions. -/
def regionsDisjoint (rs : List (Nat × Nat)) : Prop :=
  rs.Pairwise (fun r s => r.1 + r.2 ≤ s.1 ∨ s.1 + s.2 ≤ r.1)

/-
  ###################################################################
  ## Theorems
  ###################################################################

  ## Basic buffer and list lemmas
-/

theorem readLE_congr (w : Nat) : ∀ (b₁ b₂ : Bytes), (∀ j, j < w → b₁ j = b₂ j) →
    readLE b₁ w = readLE b₂ w := by
  induction w with
  | zero => intro b₁ b₂ _; rfl
  | succ w ih =>
      intro b₁ b₂ h
      simp only [readLE]
      rw [h 0 (Nat.succ_pos w), ih (shiftBuf b₁ 1) (shiftBuf b₂ 1)]
      intro j hj
      exact h (j + 1) (by omega)

theorem readLE_lt (b : Bytes) (w : Nat) : readLE b w < 2 ^ (8 * w) := by
  induction w generalizing b with
  | zero => simp [readLE]
  | succ w ih =>
      simp only [readLE]
      have h1 : b 0 % 256 < 256 := Nat.mod_lt _ (by norm_num)
      have h2 := ih (shiftBuf b 1)
      have : 2 ^ (8 * (w + 1)) = 256 * 2 ^ (8 * w) := by ring
      omega

theorem shiftBuf_congr (k sz : Nat) (b₁ b₂ : Bytes)
    (h : ∀ j, j < k + sz → b₁ j = b₂ j) :
    ∀ j, j < sz → shiftBuf b₁ k j = shiftBuf b₂ k j := by
  intro j hj
  exact h (j + k) (by omega)

theorem findField_mem {dfs : List (String × Nat × TypeDesc)} {fname : String}
    {e : String × Nat × TypeDesc} (h : findField dfs fname = some e) :
    e ∈ dfs ∧ e.1 = fname := by
  unfold findField at h
  refine ⟨List.mem_of_find?_eq_some h, ?_⟩
  have := List.find?_some h
  simpa using this

theorem findCtor_mem {dcs : List (String × Nat × TypeDesc)} {cname : String}
    {e : String × Nat × TypeDesc} (h : findCtor dcs cname = some e) :
    e ∈ dcs ∧ e.1 = cname := by
  unfold findCtor at h
  refine ⟨List.mem_of_find?_eq_some h, ?_⟩
  have := List.find?_some h
  simpa using this

theorem fieldsEnd_bound {dfs : List (String × Nat × TypeDesc)}
    {e : String × Nat × TypeDesc} (h : e ∈ dfs) :
    e.2.1 + sizeOfTy e.2.2 ≤ fieldsEnd dfs := by
  induction dfs with
  | nil => cases h
  | cons d ds ih =>
      obtain ⟨n, off, t⟩ := d
      rcases List.mem_cons.mp h with h2 | h2
      · subst h2; simp [fieldsEnd]
      · have := ih h2
        simp only [fieldsEnd]
        omega

theorem ctorsSize_bound {dcs : List (String × Nat × TypeDesc)}
    {e : String × Nat × TypeDesc} (h : e ∈ dcs) :
    sizeOfTy e.2.2 ≤ ctorsSize dcs := by
  induction dcs with
  | nil => cases h
  | cons d ds ih =>
      obtain ⟨n, tg, t⟩ := d
      rcases List.mem_cons.mp h with h2 | h2
      · subst h2; simp [ctorsSize]
      · have := ih h2
        simp only [ctorsSize]
        omega

theorem ctorsAlign_bound {dcs : List (String × Nat × TypeDesc)}
    {e : String × Nat × TypeDesc} (h : e ∈ dcs) :
    alignOfTy e.2.2 ≤ ctorsAlign dcs := by
  induction dcs with
  | nil => cases h
  | cons d ds ih =>
      obtain ⟨n, tg, t⟩ := d
      rcases List.mem_cons.mp h with h2 | h2
      · subst h2; simp [ctorsAlign]
      · have := ih h2
        simp only [ctorsAlign]
        omega

theorem alignOfTy_cases (d : TypeDesc) :
    alignOfTy d = 1 ∨ alignOfTy d = 2 ∨ alignOfTy d = 4 ∨ alignOfTy d = 8 := by
  induction d using alignOfTy.induct
    (motive_1 := fun cs =>
      ctorsAlign cs = 1 ∨ ctorsAlign cs = 2 ∨ ctorsAlign cs = 4 ∨ ctorsAlign cs = 8)
    (motive_3 := fun fs =>
      fieldsAlign fs = 1 ∨ fieldsAlign fs = 2 ∨ fieldsAlign fs = 4 ∨ fieldsAlign fs = 8) <;>
    simp_all [alignOfTy, fieldsAlign, ctorsAlign] <;> omega

theorem ctorsAlign_pos (dcs : List (String × Nat × TypeDesc)) : 1 ≤ ctorsAlign dcs := by
  induction dcs with
  | nil => simp [ctorsAlign]
  | cons d ds ih => obtain ⟨n, tg, t⟩ := d; simp only [ctorsAlign]; omega

theorem ctorsAlign_cases (dcs : List (String × Nat × TypeDesc)) :
    ctorsAlign dcs = 1 ∨ ctorsAlign dcs = 2 ∨ ctorsAlign dcs = 4 ∨ ctorsAlign dcs = 8 := by
  induction dcs with
  | nil => simp [ctorsAlign]
  | cons d ds ih =>
      obtain ⟨n, tg, t⟩ := d
      have := alignOfTy_cases t
      simp only [ctorsAlign]
      omega

theorem alignTo4_eq_max {a : Nat} (h : a = 1 ∨ a = 2 ∨ a = 4 ∨ a = 8) :
    alignTo 4 a = max 4 a := by
  rcases h with h | h | h | h <;> subst h <;> rfl

theorem alignTo4_ge (a : Nat) (h : 1 ≤ a) : 4 ≤ alignTo 4 a := by
  unfold alignTo
  rcases Nat.lt_or_ge a 4 with h4 | h4
  · interval_cases a <;> simp
  · calc 4 ≤ a := h4
      _ = ((a) / a) * a := by rw [Nat.div_self (by omega)]; omega
      _ ≤ ((4 + a - 1) / a) * a := by
          have : a ≤ 4 + a - 1 := by omega
          exact Nat.mul_le_mul_right a (Nat.div_le_div_right this)

theorem lookupTag_insert (l : List (Nat × Nat × Plan)) (tag : Nat) (v : Nat × Plan) :
    ∀ t, lookupTag (insertTag l tag v) t = if t = tag then some v else lookupTag l t := by
  induction l with
  | nil =>
      intro t
      simp only [insertTag, lookupTag]
      by_cases h : tag = t
      · simp [h]
      · rw [if_neg h, if_neg (by omega)]
  | cons e l ih =>
      intro t
      simp only [insertTag]
      by_cases he : e.1 = tag
      · by_cases ht : t = tag <;>
          simp_all [lookupTag, eq_comm]
      · simp only [if_neg he, lookupTag]
        by_cases ht : e.1 = t
        · have : ¬ t = tag := by omega
          simp [ht, this]
        · simp [ht, ih t]

theorem lookupTag_mem {l : List (Nat × Nat × Plan)} {tag : Nat} {v : Nat × Plan}
    (h : lookupTag l tag = some v) : (tag, v) ∈ l := by
  induction l with
  | nil => simp [lookupTag] at h
  | cons e l ih =>
      simp only [lookupTag] at h
      by_cases he : e.1 = tag
      · rw [if_pos he] at h
        obtain ⟨k, w⟩ := e
        simp only at he
        subst he
        simp only [Option.some_inj] at h
        subst h
        exact List.mem_cons_self _ _
      · rw [if_neg he] at h
        exact List.mem_cons_of_mem _ (ih h)

/-
  ## Primitive conversion lemmas
-/

theorem sizeOfTy_primName (dst : CPrim) :
    sizeOfTy (.prim (primName dst)) = primWidth dst := by
  cases dst <;> rfl

theorem widening_width (dst : CPrim) :
    ∀ e ∈ widenings dst, sizeOfTy (.prim e.1) = primWidth e.2 := by
  cases dst <;> decide

theorem widening_name_ne (dst : CPrim) :
    ∀ e ∈ widenings dst, e.1 ≠ primName dst := by
  cases dst <;> decide

theorem widening_find (dst : CPrim) :
    ∀ e ∈ widenings dst, (widenings dst).find? (fun x => x.1 == e.1) = some e := by
  cases dst <;> decide

theorem primWidth_pos (p : CPrim) : 1 ≤ primWidth p := by
  cases p <;> decide

theorem decodeInt_wrap (p : CPrim) (v : Int) (h : inRange p v) :
    decodeInt p ((v % (2 ^ (8 * primWidth p) : Nat)).toNat) = v := by
  have hw : 1 ≤ primWidth p := primWidth_pos p
  unfold decodeInt inRange at *
  have hw8 : 8 ≤ 8 * primWidth p := by omega
  have hNsplit : (2 : Nat) ^ (8 * primWidth p) = 2 * 2 ^ (8 * primWidth p - 1) := by
    rw [← pow_succ']
    congr 1
    omega
  have hcastW : (((2 : Nat) ^ (8 * primWidth p) : Nat) : Int) = (2 : Int) ^ (8 * primWidth p) := by
    push_cast
    rfl
  have hcastH : (((2 : Nat) ^ (8 * primWidth p - 1) : Nat) : Int) =
      (2 : Int) ^ (8 * primWidth p - 1) := by
    push_cast
    rfl
  have hMpos : (0 : Int) < (((2 : Nat) ^ (8 * primWidth p) : Nat) : Int) := by
    have : 0 < (2 : Nat) ^ (8 * primWidth p) := Nat.pos_pow_of_pos _ (by omega)
    omega
  have hm1 : 0 ≤ v % (((2 : Nat) ^ (8 * primWidth p) : Nat) : Int) :=
    Int.emod_nonneg v (by omega)
  have hm2 : v % (((2 : Nat) ^ (8 * primWidth p) : Nat) : Int) <
      (((2 : Nat) ^ (8 * primWidth p) : Nat) : Int) := Int.emod_lt_of_pos v hMpos
  have hb : (((v % (((2 : Nat) ^ (8 * primWidth p) : Nat) : Int)).toNat : Nat) : Int) =
      v % (((2 : Nat) ^ (8 * primWidth p) : Nat) : Int) := Int.toNat_of_nonneg hm1
  have hbn : (v % (((2 : Nat) ^ (8 * primWidth p) : Nat) : Int)).toNat <
      (2 : Nat) ^ (8 * primWidth p) := by omega
  have hmodn : (v % (((2 : Nat) ^ (8 * primWidth p) : Nat) : Int)).toNat %
      ((2 : Nat) ^ (8 * primWidth p)) =
      (v % (((2 : Nat) ^ (8 * primWidth p) : Nat) : Int)).toNat := Nat.mod_eq_of_lt hbn
  have hrange : v % (((2 : Nat) ^ (8 * primWidth p) : Nat) : Int) = v ∨
      v % (((2 : Nat) ^ (8 * primWidth p) : Nat) : Int) =
        v + (((2 : Nat) ^ (8 * primWidth p) : Nat) : Int) := by
    cases hs : primSigned p
    · rw [hs] at h
      simp only [Bool.false_eq_true, if_false] at h
      left
      exact Int.emod_eq_of_lt h.1 (by omega)
    · rw [hs] at h
      simp only [if_true] at h
      rcases Int.lt_or_le v 0 with hv | hv
      · right
        have h1 : (0 : Int) ≤ v + (((2 : Nat) ^ (8 * primWidth p) : Nat) : Int) := by omega
        have h2 : v + (((2 : Nat) ^ (8 * primWidth p) : Nat) : Int) <
            (((2 : Nat) ^ (8 * primWidth p) : Nat) : Int) := by omega
        have h3 := Int.emod_eq_of_lt h1 h2
        have h4 := Int.add_mul_emod_self_left v (((2 : Nat) ^ (8 * primWidth p) : Nat) : Int) 1
        rw [mul_one] at h4
        omega
      · left
        exact Int.emod_eq_of_lt hv (by omega)
  simp only [hmodn]
  cases hs : primSigned p
  · rw [hs] at h
    simp only [Bool.false_eq_true, if_false] at h
    simp only [Bool.false_eq_true, false_and, if_false]
    omega
  · rw [hs] at h
    simp only [if_true] at h
    simp only [true_and]
    by_cases hb2 : 2 ^ (8 * primWidth p - 1) ≤
        (v % (((2 : Nat) ^ (8 * primWidth p) : Nat) : Int)).toNat
    · rw [if_pos hb2]
      omega
    · rw [if_neg hb2]
      omega

theorem buildPrim_identity (dst : CPrim) :
    buildPrim dst (.prim (primName dst)) =
      .ok (fun b => some (.prim (readLE b (primWidth dst)))) := by
  simp [buildPrim]

theorem buildPrim_widening (dst : CPrim) {e : String × CPrim} (he : e ∈ widenings dst) :
    buildPrim dst (.prim e.1) =
      .ok (fun b => some (.prim (castBits dst e.2 (readLE b (primWidth e.2))))) := by
  have h1 := widening_name_ne dst e he
  have h2 := widening_find dst e he
  simp [buildPrim, h1, h2]

theorem buildPrim_unknown (dst : CPrim) (s : String)
    (h1 : s ≠ primName dst) (h2 : s ∉ acceptedNames dst) :
    buildPrim dst (.prim s) = .error (.UnknownPrimitive (tyShow (.prim s)) (primTargetName dst)) := by
  have hfind : (widenings dst).find? (fun x => x.1 == s) = none := by
    rw [List.find?_eq_none]
    intro x hx hbeq
    apply h2
    have : x.1 = s := by simpa using hbeq
    exact this ▸ List.mem_map_of_mem (fun e => e.1) hx
  simp [buildPrim, h1, hfind]

theorem buildPrim_kind (dst : CPrim) (d : TypeDesc) (h : ∀ s, d ≠ .prim s) :
    buildPrim dst d = .error (.KindMismatch (tyShow d) (some (primTargetName dst))) := by
  cases d with
  | prim s => exact absurd rfl (h s)
  | nat n => rfl
  | farr e l => rfl
  | struct fs => rfl
  | variant cs => rfl

theorem buildPrim_ok_iff (dst : CPrim) (s : String) :
    okB (buildPrim dst (.prim s)) = true ↔ (s = primName dst ∨ s ∈ acceptedNames dst) := by
  constructor
  · intro h
    by_cases h1 : s = primName dst
    · exact Or.inl h1
    · by_cases h2 : s ∈ acceptedNames dst
      · exact Or.inr h2
      · rw [buildPrim_unknown dst s h1 h2] at h
        simp [okB] at h
  · intro h
    rcases h with h | h
    · subst h; rw [buildPrim_identity]; rfl
    · obtain ⟨e, he, hes⟩ := List.mem_map.mp h
      subst hes
      rw [buildPrim_widening dst he]
      rfl

/-
  ## Floating-point value lemmas
-/

theorem roundInt_exact_dvd {prec : Nat} {v : Int} (hp : 1 ≤ prec)
    (h : roundInt prec v = v) (hk : prec ≤ Nat.log 2 v.natAbs) :
    2 ^ (Nat.log 2 v.natAbs + 1 - prec) ∣ v.natAbs := by
  have hnzero : v.natAbs ≠ 0 := by
    intro h0
    rw [h0] at hk
    simp [Nat.log] at hk
    omega
  have hv0 : v ≠ 0 := fun h0 => hnzero (by simp [h0])
  simp only [roundInt] at h
  rw [if_neg (by omega)] at h
  have habs := congrArg Int.natAbs h
  rw [Int.natAbs_mul] at habs
  have hsign : v.sign.natAbs = 1 := by
    rcases Int.natAbs_eq v with he | he <;> simp [Int.natAbs_sign, hv0] at *
  rw [hsign, one_mul, Int.natAbs_ofNat] at habs
  have hqr := Nat.div_add_mod v.natAbs (2 ^ (Nat.log 2 v.natAbs + 1 - prec))
  have hpow : 0 < 2 ^ (Nat.log 2 v.natAbs + 1 - prec) := Nat.pos_pow_of_pos _ (by omega)
  by_cases hr : v.natAbs % 2 ^ (Nat.log 2 v.natAbs + 1 - prec) = 0
  · exact Nat.dvd_of_mod_eq_zero hr
  · exfalso
    have hrlt : v.natAbs % 2 ^ (Nat.log 2 v.natAbs + 1 - prec) <
        2 ^ (Nat.log 2 v.natAbs + 1 - prec) := Nat.mod_lt _ hpow
    generalize hA : (2 : Nat) ^ (Nat.log 2 v.natAbs + 1 - prec) = A at habs hqr hr hrlt hpow
    generalize hQ : v.natAbs / A = Q at habs hqr
    generalize hR : v.natAbs % A = R at habs hqr hr hrlt
    split at habs
    · rw [Nat.succ_mul] at habs
      ring_nf at habs hqr
      omega
    · ring_nf at habs hqr
      omega

theorem fpFields (p ebits S E M : Nat) (hS : S ≤ 1) (hE : E < 2 ^ ebits) (hM : M < 2 ^ p) :
    (S * 2 ^ (p + ebits) + E * 2 ^ p + M) / 2 ^ (p + ebits) % 2 = S ∧
    (S * 2 ^ (p + ebits) + E * 2 ^ p + M) / 2 ^ p % 2 ^ ebits = E ∧
    (S * 2 ^ (p + ebits) + E * 2 ^ p + M) % 2 ^ p = M := by
  have hpp : 0 < (2 : Nat) ^ p := Nat.pos_pow_of_pos _ (by omega)
  have hpe : 0 < (2 : Nat) ^ (p + ebits) := Nat.pos_pow_of_pos _ (by omega)
  have hsplit : (2 : Nat) ^ (p + ebits) = 2 ^ p * 2 ^ ebits := pow_add 2 p ebits
  refine ⟨?_, ?_, ?_⟩
  · have h1 : S * 2 ^ (p + ebits) + E * 2 ^ p + M =
        (E * 2 ^ p + M) + 2 ^ (p + ebits) * S := by ring
    rw [h1, Nat.add_mul_div_left _ _ hpe]
    have h2 : (E * 2 ^ p + M) / 2 ^ (p + ebits) = 0 := by
      apply Nat.div_eq_of_lt
      calc E * 2 ^ p + M < E * 2 ^ p + 2 ^ p := by omega
        _ = (E + 1) * 2 ^ p := by ring
        _ ≤ 2 ^ ebits * 2 ^ p := Nat.mul_le_mul_right _ (by omega)
        _ = 2 ^ (p + ebits) := by rw [hsplit]; ring
    rw [h2, Nat.zero_add]
    omega
  · have h1 : S * 2 ^ (p + ebits) + E * 2 ^ p + M =
        M + 2 ^ p * (E + 2 ^ ebits * S) := by rw [hsplit]; ring
    rw [h1, Nat.add_mul_div_left _ _ hpp, Nat.div_eq_of_lt hM, Nat.zero_add,
      Nat.add_mul_mod_self_left, Nat.mod_eq_of_lt hE]
  · have h1 : S * 2 ^ (p + ebits) + E * 2 ^ p + M =
        M + 2 ^ p * (E + 2 ^ ebits * S) := by rw [hsplit]; ring
    rw [h1, Nat.add_mul_mod_self_left, Nat.mod_eq_of_lt hM]

theorem decodeFP_encodeFPInt (p ebits bias : Nat) (v : Int)
    (hp : 1 ≤ p) (hbias : 1 ≤ bias)
    (hexact : roundInt (p + 1) v = v)
    (hover : Nat.log 2 v.natAbs + bias + 1 < 2 ^ ebits) :
    decodeFP p ebits bias (encodeFPInt p (p + ebits) bias v) = some ((v : ℚ)) := by
  have hpp : 0 < (2 : Nat) ^ p := Nat.pos_pow_of_pos _ (by omega)
  by_cases hv : v = 0
  · subst hv
    have henc0 : encodeFPInt p (p + ebits) bias 0 = 0 := by simp [encodeFPInt]
    rw [henc0]
    simp only [decodeFP, Nat.zero_div, Nat.zero_mod]
    rw [if_neg (by omega : ¬ (0 : Nat) = 2 ^ ebits - 1)]
    norm_num
  · have hn0 : v.natAbs ≠ 0 := Int.natAbs_ne_zero.mpr hv
    have hlow : 2 ^ Nat.log 2 v.natAbs ≤ v.natAbs :=
      Nat.pow_log_le_self 2 hn0
    have hhigh : v.natAbs < 2 ^ (Nat.log 2 v.natAbs + 1) :=
      Nat.lt_pow_succ_log_self (by norm_num) v.natAbs
    -- the normalized mantissa and its value equation
    have hm : ∃ m : Nat, (if Nat.log 2 v.natAbs ≤ p then
          v.natAbs * 2 ^ (p - Nat.log 2 v.natAbs)
        else v.natAbs / 2 ^ (Nat.log 2 v.natAbs - p)) = m ∧
        2 ^ p ≤ m ∧ m < 2 ^ (p + 1) ∧
        (m : ℚ) * (2 : ℚ) ^ ((Nat.log 2 v.natAbs : ℤ) - p) = (v.natAbs : ℚ) := by
      by_cases hkp : Nat.log 2 v.natAbs ≤ p
      · refine ⟨v.natAbs * 2 ^ (p - Nat.log 2 v.natAbs), by rw [if_pos hkp], ?_, ?_, ?_⟩
        · calc (2 : Nat) ^ p = 2 ^ Nat.log 2 v.natAbs * 2 ^ (p - Nat.log 2 v.natAbs) := by
                rw [← pow_add]
                congr 1
                omega
            _ ≤ v.natAbs * 2 ^ (p - Nat.log 2 v.natAbs) :=
                Nat.mul_le_mul_right _ hlow
        · calc v.natAbs * 2 ^ (p - Nat.log 2 v.natAbs) <
              2 ^ (Nat.log 2 v.natAbs + 1) * 2 ^ (p - Nat.log 2 v.natAbs) :=
                (Nat.mul_lt_mul_right (Nat.pos_pow_of_pos _ (by omega))).mpr hhigh
            _ = 2 ^ (p + 1) := by
                rw [← pow_add]
                congr 1
                omega
        · have he : ((Nat.log 2 v.natAbs : ℤ) - p) = -((p - Nat.log 2 v.natAbs : ℕ) : ℤ) := by
            omega
          rw [he, zpow_neg, zpow_natCast]
          push_cast
          have hne : ((2 : ℚ) ^ (p - Nat.log 2 v.natAbs)) ≠ 0 := by positivity
          field_simp
      · have hkp9 : p + 1 ≤ Nat.log 2 v.natAbs := by omega
        have hdvd : 2 ^ (Nat.log 2 v.natAbs - p) ∣ v.natAbs := by
          have h1 := roundInt_exact_dvd (by omega) hexact hkp9
          have h2 : Nat.log 2 v.natAbs + 1 - (p + 1) = Nat.log 2 v.natAbs - p := by omega
          rwa [h2] at h1
        have hmn : v.natAbs / 2 ^ (Nat.log 2 v.natAbs - p) * 2 ^ (Nat.log 2 v.natAbs - p) =
            v.natAbs := Nat.div_mul_cancel hdvd
        have hpow2 : 0 < (2 : Nat) ^ (Nat.log 2 v.natAbs - p) := Nat.pos_pow_of_pos _ (by omega)
        refine ⟨v.natAbs / 2 ^ (Nat.log 2 v.natAbs - p), by rw [if_neg hkp], ?_, ?_, ?_⟩
        · have h1 : 2 ^ p * 2 ^ (Nat.log 2 v.natAbs - p) ≤
              v.natAbs / 2 ^ (Nat.log 2 v.natAbs - p) * 2 ^ (Nat.log 2 v.natAbs - p) := by
            rw [hmn, ← pow_add]
            calc (2 : Nat) ^ (p + (Nat.log 2 v.natAbs - p)) = 2 ^ Nat.log 2 v.natAbs := by
                  congr 1
                  omega
              _ ≤ v.natAbs := hlow
          exact Nat.le_of_mul_le_mul_right h1 hpow2
        · have h1 : v.natAbs / 2 ^ (Nat.log 2 v.natAbs - p) * 2 ^ (Nat.log 2 v.natAbs - p) <
              2 ^ (p + 1) * 2 ^ (Nat.log 2 v.natAbs - p) := by
            rw [hmn, ← pow_add]
            calc v.natAbs < 2 ^ (Nat.log 2 v.natAbs + 1) := hhigh
              _ = 2 ^ (p + 1 + (Nat.log 2 v.natAbs - p)) := by
                  congr 1
                  omega
          exact Nat.lt_of_mul_lt_mul_right h1
        · have he : ((Nat.log 2 v.natAbs : ℤ) - p) = ((Nat.log 2 v.natAbs - p : ℕ) : ℤ) := by
            omega
          rw [he, zpow_natCast]
          rw [show ((2 : ℚ) ^ (Nat.log 2 v.natAbs - p)) =
            ((2 ^ (Nat.log 2 v.natAbs - p) : ℕ) : ℚ) by push_cast; ring]
          rw [← Nat.cast_mul, hmn]
    obtain ⟨m, hmdef, hm1, hm2, hval⟩ := hm
    have hM : m - 2 ^ p < 2 ^ p := by omega
    have hS : (if v < 0 then 1 else 0) ≤ 1 := by split <;> omega
    have hE : Nat.log 2 v.natAbs + bias < 2 ^ ebits := by omega
    have henc : encodeFPInt p (p + ebits) bias v =
        (if v < 0 then 1 else 0) * 2 ^ (p + ebits) +
          (Nat.log 2 v.natAbs + bias) * 2 ^ p + (m - 2 ^ p) := by
      simp only [encodeFPInt, if_neg hv]
      rw [hmdef]
      split <;> ring
    obtain ⟨hf1, hf2, hf3⟩ := fpFields p ebits (if v < 0 then 1 else 0)
      (Nat.log 2 v.natAbs + bias) (m - 2 ^ p) hS hE hM
    rw [henc]
    simp only [decodeFP]
    rw [hf1, hf2, hf3]
    rw [if_neg (by omega : ¬ (Nat.log 2 v.natAbs + bias = 2 ^ ebits - 1))]
    rw [if_neg (by omega : ¬ (Nat.log 2 v.natAbs + bias = 0))]
    have h2pm : (2 ^ p + (m - 2 ^ p) : ℕ) = m := by omega
    rw [h2pm]
    have hexp : ((Nat.log 2 v.natAbs + bias : ℕ) : ℤ) - bias - p =
        (Nat.log 2 v.natAbs : ℤ) - p := by push_cast; ring
    rw [hexp, hval]
    rcases Int.lt_or_le v 0 with hneg | hpos
    · rw [if_pos (by simp [hneg] : ((if v < 0 then (1 : ℕ) else 0) = 1))]
      have h8 : ((v.natAbs : ℕ) : ℤ) = -v := by omega
      have h9 : ((v.natAbs : ℕ) : ℚ) = -(v : ℚ) := by
        rw [← Int.cast_natCast (R := ℚ), h8]
        push_cast
        ring
      rw [h9]
      norm_num
    · have hnn : ¬ v < 0 := by omega
      rw [if_neg (by simp [hnn] : ¬ ((if v < 0 then (1 : ℕ) else 0) = 1))]
      have h8 : ((v.natAbs : ℕ) : ℤ) = v := by omega
      have h9 : ((v.natAbs : ℕ) : ℚ) = (v : ℚ) := by
        rw [← Int.cast_natCast (R := ℚ), h8]
      rw [h9]
      norm_num

theorem f32ToF64_value (pat : Nat) (q : ℚ) (h : decodeFP 23 8 127 pat = some q) :
    decodeFP 52 11 1023 (f32ToF64bits pat) = some q := by
  have hsle : pat / 2 ^ 31 % 2 ≤ 1 := Nat.le_of_lt_succ (Nat.mod_lt _ (by norm_num))
  have hmlt : pat % 2 ^ 23 < 2 ^ 23 := Nat.mod_lt _ (by norm_num)
  have hElt : pat / 2 ^ 23 % 256 < 256 := Nat.mod_lt _ (by norm_num)
  have h318 : (23 : Nat) + 8 = 31 := by norm_num
  have h2568 : (256 : Nat) = 2 ^ 8 := by norm_num
  simp only [decodeFP, h318] at h
  rw [← h2568] at h
  by_cases hE255 : pat / 2 ^ 23 % 256 = 255
  · rw [if_pos (by omega)] at h
    cases h
  · rw [if_neg (by omega)] at h
    have hq := Option.some.inj h
    clear h
    simp only [f32ToF64bits]
    rw [if_neg hE255]
    by_cases hE0 : pat / 2 ^ 23 % 256 = 0
    · rw [if_pos hE0]
      rw [if_pos hE0] at hq
      by_cases hm0 : pat % 2 ^ 23 = 0
      · rw [if_pos hm0]
        rw [hm0] at hq
        have hpat : pat / 2 ^ 31 % 2 * 2 ^ 63 =
            pat / 2 ^ 31 % 2 * 2 ^ (52 + 11) + 0 * 2 ^ 52 + 0 := by norm_num
        rw [hpat]
        obtain ⟨hf1, hf2, hf3⟩ := fpFields 52 11 (pat / 2 ^ 31 % 2) 0 0 hsle
          (by norm_num) (by norm_num)
        simp only [decodeFP]
        rw [hf1, hf2, hf3]
        rw [if_neg (by norm_num)]
        rw [← hq]
        norm_num
      · rw [if_neg hm0]
        have hk22 : Nat.log 2 (pat % 2 ^ 23) < 23 := Nat.log_lt_of_lt_pow hm0 hmlt
        have hlow : 2 ^ Nat.log 2 (pat % 2 ^ 23) ≤ pat % 2 ^ 23 :=
          Nat.pow_log_le_self 2 hm0
        have hhigh : pat % 2 ^ 23 < 2 ^ (Nat.log 2 (pat % 2 ^ 23) + 1) :=
          Nat.lt_pow_succ_log_self (by norm_num) _
        have hMsub : pat % 2 ^ 23 - 2 ^ Nat.log 2 (pat % 2 ^ 23) <
            2 ^ Nat.log 2 (pat % 2 ^ 23) := by
          have := Nat.pow_succ 2 (Nat.log 2 (pat % 2 ^ 23))
          omega
        have hMlt : (pat % 2 ^ 23 - 2 ^ Nat.log 2 (pat % 2 ^ 23)) *
            2 ^ (52 - Nat.log 2 (pat % 2 ^ 23)) < 2 ^ 52 := by
          calc (pat % 2 ^ 23 - 2 ^ Nat.log 2 (pat % 2 ^ 23)) *
              2 ^ (52 - Nat.log 2 (pat % 2 ^ 23)) <
              2 ^ Nat.log 2 (pat % 2 ^ 23) * 2 ^ (52 - Nat.log 2 (pat % 2 ^ 23)) :=
                (Nat.mul_lt_mul_right (Nat.pos_pow_of_pos _ (by omega))).mpr hMsub
            _ = 2 ^ 52 := by
                rw [← pow_add]
                congr 1
                omega
        have hE64 : Nat.log 2 (pat % 2 ^ 23) + 874 < 2 ^ 11 := by
          have : (2 : Nat) ^ 11 = 2048 := by norm_num
          omega
        obtain ⟨hf1, hf2, hf3⟩ := fpFields 52 11 (pat / 2 ^ 31 % 2)
          (Nat.log 2 (pat % 2 ^ 23) + 874)
          ((pat % 2 ^ 23 - 2 ^ Nat.log 2 (pat % 2 ^ 23)) *
            2 ^ (52 - Nat.log 2 (pat % 2 ^ 23))) hsle hE64 hMlt
        have hpat : pat / 2 ^ 31 % 2 * 2 ^ 63 +
            (Nat.log 2 (pat % 2 ^ 23) + 874) * 2 ^ 52 +
            (pat % 2 ^ 23 - 2 ^ Nat.log 2 (pat % 2 ^ 23)) *
              2 ^ (52 - Nat.log 2 (pat % 2 ^ 23)) =
            pat / 2 ^ 31 % 2 * 2 ^ (52 + 11) +
            (Nat.log 2 (pat % 2 ^ 23) + 874) * 2 ^ 52 +
            (pat % 2 ^ 23 - 2 ^ Nat.log 2 (pat % 2 ^ 23)) *
              2 ^ (52 - Nat.log 2 (pat % 2 ^ 23)) := by norm_num
        rw [hpat]
        simp only [decodeFP]
        rw [hf1, hf2, hf3]
        rw [if_neg (by
          have : (2 : Nat) ^ 11 = 2048 := by norm_num
          omega : ¬ Nat.log 2 (pat % 2 ^ 23) + 874 = 2 ^ 11 - 1)]
        rw [if_neg (by omega : ¬ Nat.log 2 (pat % 2 ^ 23) + 874 = 0)]
        rw [← hq]
        congr 1
        have hmant : (2 : ℕ) ^ 52 +
            (pat % 2 ^ 23 - 2 ^ Nat.log 2 (pat % 2 ^ 23)) *
              2 ^ (52 - Nat.log 2 (pat % 2 ^ 23)) =
            (pat % 2 ^ 23) * 2 ^ (52 - Nat.log 2 (pat % 2 ^ 23)) := by
          have h1 : (pat % 2 ^ 23 - 2 ^ Nat.log 2 (pat % 2 ^ 23)) + 2 ^ Nat.log 2 (pat % 2 ^ 23) =
              pat % 2 ^ 23 := Nat.sub_add_cancel hlow
          calc (2 : ℕ) ^ 52 +
              (pat % 2 ^ 23 - 2 ^ Nat.log 2 (pat % 2 ^ 23)) *
                2 ^ (52 - Nat.log 2 (pat % 2 ^ 23)) =
              2 ^ Nat.log 2 (pat % 2 ^ 23) * 2 ^ (52 - Nat.log 2 (pat % 2 ^ 23)) +
              (pat % 2 ^ 23 - 2 ^ Nat.log 2 (pat % 2 ^ 23)) *
                2 ^ (52 - Nat.log 2 (pat % 2 ^ 23)) := by
                rw [← pow_add]
                congr 2
                omega
            _ = ((pat % 2 ^ 23 - 2 ^ Nat.log 2 (pat % 2 ^ 23)) +
                2 ^ Nat.log 2 (pat % 2 ^ 23)) * 2 ^ (52 - Nat.log 2 (pat % 2 ^ 23)) := by
                ring
            _ = (pat % 2 ^ 23) * 2 ^ (52 - Nat.log 2 (pat % 2 ^ 23)) := by rw [h1]
        rw [hmant]
        have he1 : ((Nat.log 2 (pat % 2 ^ 23) + 874 : ℕ) : ℤ) - ((1023 : ℕ) : ℤ) -
            ((52 : ℕ) : ℤ) = (Nat.log 2 (pat % 2 ^ 23) : ℤ) - 201 := by
          push_cast
          ring
        rw [he1]
        have hc1 : (((pat % 2 ^ 23) * 2 ^ (52 - Nat.log 2 (pat % 2 ^ 23)) : ℕ) : ℚ) =
            ((pat % 2 ^ 23 : ℕ) : ℚ) *
              (2 : ℚ) ^ (((52 - Nat.log 2 (pat % 2 ^ 23) : ℕ)) : ℤ) := by
          push_cast [zpow_natCast]
          ring
        rw [hc1, mul_assoc, ← zpow_add₀ (by norm_num : (2 : ℚ) ≠ 0)]
        have he2 : (((52 - Nat.log 2 (pat % 2 ^ 23) : ℕ)) : ℤ) +
            ((Nat.log 2 (pat % 2 ^ 23) : ℤ) - 201) =
            (1 : ℤ) - ((127 : ℕ) : ℤ) - ((23 : ℕ) : ℤ) := by
          omega
        rw [he2]
    · rw [if_neg hE0]
      rw [if_neg hE0] at hq
      have hE64a : pat / 2 ^ 23 % 256 + 896 < 2 ^ 11 := by
        have : (2 : Nat) ^ 11 = 2048 := by norm_num
        omega
      have hMlt : (pat % 2 ^ 23) * 2 ^ 29 < 2 ^ 52 := by
        have h1 : (pat % 2 ^ 23) * 2 ^ 29 < 2 ^ 23 * 2 ^ 29 :=
          (Nat.mul_lt_mul_right (by norm_num)).mpr hmlt
        calc (pat % 2 ^ 23) * 2 ^ 29 < 2 ^ 23 * 2 ^ 29 := h1
          _ = 2 ^ 52 := by norm_num
      obtain ⟨hf1, hf2, hf3⟩ := fpFields 52 11 (pat / 2 ^ 31 % 2)
        (pat / 2 ^ 23 % 256 + 896) ((pat % 2 ^ 23) * 2 ^ 29) hsle hE64a hMlt
      have hpat : pat / 2 ^ 31 % 2 * 2 ^ 63 + (pat / 2 ^ 23 % 256 + 896) * 2 ^ 52 +
          pat % 2 ^ 23 * 2 ^ 29 =
          pat / 2 ^ 31 % 2 * 2 ^ (52 + 11) + (pat / 2 ^ 23 % 256 + 896) * 2 ^ 52 +
          pat % 2 ^ 23 * 2 ^ 29 := by norm_num
      rw [hpat]
      simp only [decodeFP]
      rw [hf1, hf2, hf3]
      rw [if_neg (by
        have : (2 : Nat) ^ 11 = 2048 := by norm_num
        omega : ¬ pat / 2 ^ 23 % 256 + 896 = 2 ^ 11 - 1)]
      rw [if_neg (by omega : ¬ pat / 2 ^ 23 % 256 + 896 = 0)]
      rw [← hq]
      congr 1
      have hmant : (2 : ℕ) ^ 52 + pat % 2 ^ 23 * 2 ^ 29 =
          2 ^ 29 * (2 ^ 23 + pat % 2 ^ 23) := by
        have h1 : (2 : ℕ) ^ 52 = 2 ^ 29 * 2 ^ 23 := by norm_num
        omega
      rw [hmant]
      have he1 : ((pat / 2 ^ 23 % 256 + 896 : ℕ) : ℤ) - ((1023 : ℕ) : ℤ) -
          ((52 : ℕ) : ℤ) = ((pat / 2 ^ 23 % 256 : ℕ) : ℤ) - 179 := by
        push_cast
        ring
      rw [he1]
      have hc1 : (((2 : ℕ) ^ 29 * (2 ^ 23 + pat % 2 ^ 23) : ℕ) : ℚ) =
          (((2 : ℕ) ^ 23 + pat % 2 ^ 23 : ℕ) : ℚ) * (2 : ℚ) ^ ((29 : ℕ) : ℤ) := by
        push_cast [zpow_natCast]
        ring
      rw [hc1, mul_assoc, ← zpow_add₀ (by norm_num : (2 : ℚ) ≠ 0)]
      have he2 : ((29 : ℕ) : ℤ) + (((pat / 2 ^ 23 % 256 : ℕ) : ℤ) - 179) =
          ((pat / 2 ^ 23 % 256 : ℕ) : ℤ) - ((127 : ℕ) : ℤ) - ((23 : ℕ) : ℤ) := by
        omega
      rw [he2]

theorem castBits_int (dst src : CPrim) (h32 : dst ≠ .cf32) (h64 : dst ≠ .cf64) (bits : Nat) :
    castBits dst src bits = ((decodeInt src bits) % (2 ^ (8 * primWidth dst) : Nat)).toNat := by
  cases dst <;> cases src <;> simp_all [castBits]

theorem castBits_value_int (dst src : CPrim) (h32 : dst ≠ .cf32) (h64 : dst ≠ .cf64)
    (bits : Nat) (h : inRange dst (decodeInt src bits)) :
    decodeInt dst (castBits dst src bits) = decodeInt src bits := by
  rw [castBits_int dst src h32 h64 bits]
  exact decodeInt_wrap dst (decodeInt src bits) h

theorem decodeInt_natAbs_le (p : CPrim) (bits : Nat) :
    (decodeInt p bits).natAbs ≤ 2 ^ (8 * primWidth p) := by
  have hpos : 0 < (2 : Nat) ^ (8 * primWidth p) := Nat.pos_pow_of_pos _ (by omega)
  have hblt : bits % 2 ^ (8 * primWidth p) < 2 ^ (8 * primWidth p) := Nat.mod_lt _ hpos
  have hcast : (((2 : Nat) ^ (8 * primWidth p) : Nat) : Int) = (2 : Int) ^ (8 * primWidth p) := by
    push_cast
    rfl
  show (if primSigned p = true ∧ 2 ^ (8 * primWidth p - 1) ≤ bits % 2 ^ (8 * primWidth p) then
      ((bits % 2 ^ (8 * primWidth p) : Nat) : Int) - (2 : Int) ^ (8 * primWidth p)
    else ((bits % 2 ^ (8 * primWidth p) : Nat) : Int)).natAbs ≤ 2 ^ (8 * primWidth p)
  split <;> omega

theorem decodeInt_log_le (p : CPrim) (bits : Nat) :
    Nat.log 2 (decodeInt p bits).natAbs ≤ 64 := by
  have h1 := decodeInt_natAbs_le p bits
  have h2 : 2 ^ (8 * primWidth p) ≤ 2 ^ 64 := by
    apply Nat.pow_le_pow_right (by omega)
    have := primWidth_pos p
    cases p <;> simp [primWidth]
  calc Nat.log 2 (decodeInt p bits).natAbs ≤ Nat.log 2 (2 ^ 64) :=
        Nat.log_mono_right (by omega)
    _ = 64 := Nat.log_pow (by norm_num) 64

theorem castBits_value_f32 (src : CPrim) (hsrc : src ≠ .cf32) (bits : Nat)
    (h : roundInt 24 (decodeInt src bits) = decodeInt src bits) :
    decodeFP 23 8 127 (castBits .cf32 src bits) = some ((decodeInt src bits : ℚ)) := by
  have hc : castBits .cf32 src bits = encodeFPInt 23 31 127 (roundInt 24 (decodeInt src bits)) := by
    cases src <;> simp_all [castBits]
  rw [hc, h]
  have h31 : (31 : Nat) = 23 + 8 := by norm_num
  rw [h31]
  apply decodeFP_encodeFPInt 23 8 127 _ (by norm_num) (by norm_num)
  · rw [show (23 + 1 : Nat) = 24 from by norm_num]
    exact h
  · have := decodeInt_log_le src bits
    have : (2 : Nat) ^ 8 = 256 := by norm_num
    have h9 := decodeInt_log_le src bits
    omega

theorem castBits_value_f64 (src : CPrim) (hsrc : src ≠ .cf32) (bits : Nat)
    (h : roundInt 53 (decodeInt src bits) = decodeInt src bits) :
    decodeFP 52 11 1023 (castBits .cf64 src bits) = some ((decodeInt src bits : ℚ)) := by
  have hc : castBits .cf64 src bits =
      encodeFPInt 52 63 1023 (roundInt 53 (decodeInt src bits)) := by
    cases src <;> simp_all [castBits]
  rw [hc, h]
  have h63 : (63 : Nat) = 52 + 11 := by norm_num
  rw [h63]
  apply decodeFP_encodeFPInt 52 11 1023 _ (by norm_num) (by norm_num)
  · rw [show (52 + 1 : Nat) = 53 from by norm_num]
    exact h
  · have : (2 : Nat) ^ 11 = 2048 := by norm_num
    have h9 := decodeInt_log_le src bits
    omega

theorem castBits_value_f32_to_f64 (bits : Nat) (qv : ℚ)
    (h : decodeFP 23 8 127 bits = some qv) :
    decodeFP 52 11 1023 (castBits .cf64 .cf32 bits) = some qv := by
  have hc : castBits .cf64 .cf32 bits = f32ToF64bits bits := rfl
  rw [hc]
  exact f32ToF64_value bits qv h

/-
  ## Struct and variant construction lemmas
-/

theorem buildPlan_record_ok (fs : List (String × CTarget))
    (dfs : List (String × Nat × TypeDesc)) :
    okB (buildPlan (.record fs) (.struct dfs)) = okB (buildFields fs dfs) := by
  simp only [buildPlan]
  cases buildFields fs dfs <;> rfl

theorem buildPlan_record_plan {fs : List (String × CTarget)}
    {dfs : List (String × Nat × TypeDesc)} {p : Plan}
    (h : buildPlan (.record fs) (.struct dfs) = .ok p) :
    ∃ entries, buildFields fs dfs = .ok entries ∧ p = applyStruct entries := by
  simp only [buildPlan] at h
  cases he : buildFields fs dfs with
  | ok entries =>
      rw [he] at h
      exact ⟨entries, rfl, (Except.ok.inj h).symm⟩
  | error err =>
      rw [he] at h
      cases h

theorem buildPlan_union_ok (cs : List (String × Nat × CTarget))
    (dcs : List (String × Nat × TypeDesc)) :
    okB (buildPlan (.union cs) (.variant dcs)) = okB (buildCtors cs dcs ⟨[], 4, 1⟩) := by
  simp only [buildPlan]
  cases buildCtors cs dcs ⟨[], 4, 1⟩ <;> rfl

theorem buildPlan_union_plan {cs : List (String × Nat × CTarget)}
    {dcs : List (String × Nat × TypeDesc)} {p : Plan}
    (h : buildPlan (.union cs) (.variant dcs) = .ok p) :
    ∃ vc, buildCtors cs dcs ⟨[], 4, 1⟩ = .ok vc ∧ p = applyVariant vc := by
  simp only [buildPlan] at h
  cases he : buildCtors cs dcs ⟨[], 4, 1⟩ with
  | ok vc =>
      rw [he] at h
      exact ⟨vc, rfl, (Except.ok.inj h).symm⟩
  | error err =>
      rw [he] at h
      cases h

theorem buildFields_ok_iff (fs : List (String × CTarget))
    (dfs : List (String × Nat × TypeDesc)) :
    okB (buildFields fs dfs) = true ↔
      ∀ f ∈ fs, ∃ off dty, findField dfs f.1 = some (f.1, off, dty) ∧
        okB (buildPlan f.2 dty) = true := by
  induction fs with
  | nil => simp [buildFields, okB]
  | cons f fs ih =>
      obtain ⟨fname, fty⟩ := f
      cases hf : findField dfs fname with
      | none =>
          simp only [buildFields, hf, okB, List.mem_cons]
          constructor
          · intro h
            cases h
          · intro h
            obtain ⟨off, dty, hfind, _⟩ := h (fname, fty) (Or.inl rfl)
            simp only at hfind
            rw [hf] at hfind
            cases hfind
      | some e =>
          obtain ⟨ename, off, dty⟩ := e
          have hename : ename = fname := (findField_mem hf).2
          subst hename
          cases hp : buildPlan fty dty with
          | ok p =>
              cases hr : buildFields fs dfs with
              | ok rest =>
                  simp only [buildFields, hf, hp, hr, okB, List.mem_cons]
                  constructor
                  · intro _ g hg
                    rcases hg with hg1 | hg2
                    · subst hg1
                      exact ⟨off, dty, hf, by simp [hp, okB]⟩
                    · exact (ih.mp (by rw [hr]; rfl)) g hg2
                  · intro _
                    trivial
              | error err =>
                  simp only [buildFields, hf, hp, hr, okB, List.mem_cons]
                  constructor
                  · intro h
                    cases h
                  · intro h
                    have h2 : okB (buildFields fs dfs) = true := by
                      rw [ih]
                      intro g hg
                      exact h g (Or.inr hg)
                    rw [hr] at h2
                    cases h2
          | error err =>
              simp only [buildFields, hf, hp, okB, List.mem_cons]
              constructor
              · intro h
                cases h
              · intro h
                obtain ⟨off2, dty2, hfind2, hok2⟩ := h (ename, fty) (Or.inl rfl)
                simp only at hfind2
                rw [hf] at hfind2
                have h1 : dty2 = dty := by
                  cases hfind2
                  rfl
                subst h1
                simp only at hok2
                rw [hp] at hok2
                cases hok2

theorem buildFields_missing (fs₁ fs₂ : List (String × CTarget)) (f : String × CTarget)
    (dfs : List (String × Nat × TypeDesc))
    (hgood : ∀ g ∈ fs₁, ∃ off dty, findField dfs g.1 = some (g.1, off, dty) ∧
      okB (buildPlan g.2 dty) = true)
    (hmiss : findField dfs f.1 = none) :
    buildFields (fs₁ ++ f :: fs₂) dfs = .error (.MissingField f.1) := by
  induction fs₁ with
  | nil =>
      obtain ⟨fname, fty⟩ := f
      simp only at hmiss
      simp only [List.nil_append, buildFields, hmiss]
  | cons g gs ih =>
      obtain ⟨gname, gty⟩ := g
      obtain ⟨off, dty, hfind, hok⟩ := hgood (gname, gty) (List.mem_cons_self _ _)
      simp only at hfind hok
      cases hp : buildPlan gty dty with
      | ok p =>
          have hrest := ih (fun g hg => hgood g (List.mem_cons_of_mem _ hg))
          simp only [List.cons_append, buildFields, hfind, hp, List.append_eq, hrest]
      | error err =>
          rw [hp] at hok
          cases hok

theorem option_mapM_eq_some {α β : Type} (f : α → Option β) :
    ∀ (l : List α) (vs : List β),
      l.mapM f = some vs ↔ List.Forall₂ (fun a b => f a = some b) l vs := by
  intro l
  induction l with
  | nil =>
      intro vs
      simp only [List.mapM_nil, pure, Option.some_inj]
      constructor
      · intro h
        subst h
        exact List.Forall₂.nil
      · intro h
        cases h
        rfl
  | cons a l ih =>
      intro vs
      simp only [List.mapM_cons]
      cases hfa : f a with
      | none =>
          simp only [Option.bind_eq_bind, Option.none_bind]
          constructor
          · intro h
            cases h
          · intro h
            cases h with
            | cons hab _ => rw [hfa] at hab; cases hab
      | some b =>
          simp only [Option.bind_eq_bind, Option.some_bind]
          cases hml : l.mapM f with
          | none =>
              simp only [Option.none_bind]
              constructor
              · intro h
                cases h
              · intro h
                cases h with
                | cons hab htail =>
                    rw [← ih] at htail
                    rw [hml] at htail
                    cases htail
          | some bs =>
              simp only [Option.some_bind, pure, Option.some_inj]
              constructor
              · intro h
                subst h
                exact List.Forall₂.cons hfa ((ih bs).mp hml)
              · intro h
                cases h with
                | cons hab htail =>
                    rw [hfa] at hab
                    cases hab
                    have := (ih _).mpr htail
                    rw [hml] at this
                    cases this
                    rfl

theorem buildFields_forall2 {fs : List (String × CTarget)}
    {dfs : List (String × Nat × TypeDesc)} {entries : List (Nat × Plan)}
    (h : buildFields fs dfs = .ok entries) :
    List.Forall₂ (fun (f : String × CTarget) (e : Nat × Plan) =>
      ∃ dty, findField dfs f.1 = some (f.1, e.1, dty) ∧ buildPlan f.2 dty = .ok e.2)
      fs entries := by
  induction fs generalizing entries with
  | nil =>
      simp only [buildFields] at h
      cases h
      exact List.Forall₂.nil
  | cons f fs ih =>
      obtain ⟨fname, fty⟩ := f
      cases hf : findField dfs fname with
      | none =>
          simp only [buildFields, hf] at h
          cases h
      | some e =>
          obtain ⟨ename, off, dty⟩ := e
          have hename : ename = fname := (findField_mem hf).2
          subst hename
          cases hp : buildPlan fty dty with
          | ok p =>
              cases hr : buildFields fs dfs with
              | ok rest =>
                  simp only [buildFields, hf, hp, hr] at h
                  cases h
                  exact List.Forall₂.cons ⟨dty, hf, hp⟩ (ih hr)
              | error err =>
                  simp only [buildFields, hf, hp, hr] at h
                  cases h
          | error err =>
              simp only [buildFields, hf, hp] at h
              cases h

theorem buildCtors_maxAlign (dcs : List (String × Nat × TypeDesc)) :
    ∀ (cs : List (String × Nat × CTarget)) (st vc : VariantConv),
      buildCtors cs dcs st = .ok vc →
      vc.maxAlign = cs.foldl (fun acc c =>
        match findCtor dcs c.1 with
        | some (_, _, pd) => max acc (alignOfTy pd)
        | none => acc) st.maxAlign := by
  intro cs
  induction cs with
  | nil =>
      intro st vc h
      simp only [buildCtors] at h
      cases h
      rfl
  | cons c cs ih =>
      intro st vc h
      obtain ⟨cname, cid, cty⟩ := c
      cases hf : findCtor dcs cname with
      | none =>
          simp only [buildCtors, hf] at h
          simp only [List.foldl_cons, hf]
          exact ih st vc h
      | some e =>
          obtain ⟨ename, tag, pdesc⟩ := e
          cases hp : buildPlan cty pdesc with
          | ok p =>
              simp only [buildCtors, hf, hp] at h
              simp only [List.foldl_cons, hf]
              exact ih _ vc h
          | error err =>
              simp only [buildCtors, hf, hp] at h
              cases h

theorem buildCtors_offset (dcs : List (String × Nat × TypeDesc)) :
    ∀ (cs : List (String × Nat × CTarget)) (st vc : VariantConv),
      buildCtors cs dcs st = .ok vc →
      st.srcPayloadOffset = alignTo 4 st.maxAlign →
      vc.srcPayloadOffset = alignTo 4 vc.maxAlign := by
  intro cs
  induction cs with
  | nil =>
      intro st vc h hinv
      simp only [buildCtors] at h
      cases h
      exact hinv
  | cons c cs ih =>
      intro st vc h hinv
      obtain ⟨cname, cid, cty⟩ := c
      cases hf : findCtor dcs cname with
      | none =>
          simp only [buildCtors, hf] at h
          exact ih st vc h hinv
      | some e =>
          obtain ⟨ename, tag, pdesc⟩ := e
          cases hp : buildPlan cty pdesc with
          | ok p =>
              simp only [buildCtors, hf, hp] at h
              exact ih _ vc h rfl
          | error err =>
              simp only [buildCtors, hf, hp] at h
              cases h

theorem buildCtors_lookup_total (dcs : List (String × Nat × TypeDesc)) :
    ∀ (cs : List (String × Nat × CTarget)) (st vc : VariantConv),
      buildCtors cs dcs st = .ok vc →
      ∀ tag, (lookupTag st.ctors tag ≠ none ∨ matchedTag cs dcs tag) →
      lookupTag vc.ctors tag ≠ none := by
  intro cs
  induction cs with
  | nil =>
      intro st vc h tag htag
      simp only [buildCtors] at h
      cases h
      rcases htag with h1 | h1
      · exact h1
      · obtain ⟨c, hc, _⟩ := h1
        cases hc
  | cons c cs ih =>
      intro st vc h tag htag
      obtain ⟨cname, cid, cty⟩ := c
      cases hf : findCtor dcs cname with
      | none =>
          simp only [buildCtors, hf] at h
          apply ih st vc h tag
          rcases htag with h1 | h1
          · exact Or.inl h1
          · obtain ⟨c2, hc2, pd, hc2f⟩ := h1
            rcases List.mem_cons.mp hc2 with he | he
            · subst he
              simp only at hc2f
              rw [hf] at hc2f
              cases hc2f
            · exact Or.inr ⟨c2, he, pd, hc2f⟩
      | some e =>
          obtain ⟨ename, tg, pdesc⟩ := e
          cases hp : buildPlan cty pdesc with
          | ok p =>
              simp only [buildCtors, hf, hp] at h
              apply ih _ vc h tag
              by_cases htg : tag = tg
              · subst htg
                left
                simp [lookupTag_insert]
              · rcases htag with h1 | h1
                · left
                  simpa [lookupTag_insert, htg] using h1
                · obtain ⟨c2, hc2, pd, hc2f⟩ := h1
                  rcases List.mem_cons.mp hc2 with he | he
                  · subst he
                    simp only at hc2f
                    rw [hf] at hc2f
                    cases hc2f
                    exact absurd rfl htg
                  · exact Or.inr ⟨c2, he, pd, hc2f⟩
          | error err =>
              simp only [buildCtors, hf, hp] at h
              cases h

theorem buildCtors_lookup_src (dcs : List (String × Nat × TypeDesc)) :
    ∀ (cs : List (String × Nat × CTarget)) (st vc : VariantConv),
      buildCtors cs dcs st = .ok vc →
      ∀ tag cid p, lookupTag vc.ctors tag = some (cid, p) →
        lookupTag st.ctors tag = some (cid, p) ∨
        ∃ c ∈ cs, ∃ pdesc, findCtor dcs c.1 = some (c.1, tag, pdesc) ∧
          cid = c.2.1 ∧ buildPlan c.2.2 pdesc = .ok p := by
  intro cs
  induction cs with
  | nil =>
      intro st vc h tag cid p hl
      simp only [buildCtors] at h
      cases h
      exact Or.inl hl
  | cons c cs ih =>
      intro st vc h tag cid p hl
      obtain ⟨cname, ccid, cty⟩ := c
      cases hf : findCtor dcs cname with
      | none =>
          simp only [buildCtors, hf] at h
          rcases ih st vc h tag cid p hl with h1 | ⟨c2, hc2, pdesc, h3, h4, h5⟩
          · exact Or.inl h1
          · exact Or.inr ⟨c2, List.mem_cons_of_mem _ hc2, pdesc, h3, h4, h5⟩
      | some e =>
          obtain ⟨ename, tg, pdesc⟩ := e
          have hename : ename = cname := (findCtor_mem hf).2
          rw [hename] at hf
          cases hp : buildPlan cty pdesc with
          | ok p0 =>
              simp only [buildCtors, hf, hp] at h
              rcases ih _ vc h tag cid p hl with h1 | ⟨c2, hc2, pdesc2, h3, h4, h5⟩
              · simp only [lookupTag_insert] at h1
                by_cases htg : tag = tg
                · subst htg
                  rw [if_pos rfl] at h1
                  have hcid : cid = ccid ∧ p = p0 := by
                    cases h1
                    exact ⟨rfl, rfl⟩
                  exact Or.inr ⟨(cname, ccid, cty), List.mem_cons_self _ _, pdesc,
                    hf, hcid.1, by rw [hp, hcid.2]⟩
                · rw [if_neg htg] at h1
                  exact Or.inl h1
              · exact Or.inr ⟨c2, List.mem_cons_of_mem _ hc2, pdesc2, h3, h4, h5⟩
          | error err =>
              simp only [buildCtors, hf, hp] at h
              cases h

theorem buildCtors_ok_iff (dcs : List (String × Nat × TypeDesc)) :
    ∀ (cs : List (String × Nat × CTarget)) (st : VariantConv),
      okB (buildCtors cs dcs st) = true ↔
      ∀ c ∈ cs, ∀ e, findCtor dcs c.1 = some e →
        okB (buildPlan c.2.2 e.2.2) = true := by
  intro cs
  induction cs with
  | nil =>
      intro st
      simp [buildCtors, okB]
  | cons c cs ih =>
      intro st
      obtain ⟨cname, ccid, cty⟩ := c
      cases hf : findCtor dcs cname with
      | none =>
          simp only [buildCtors, hf]
          rw [ih st]
          constructor
          · intro h g hg e hge
            rcases List.mem_cons.mp hg with he | he
            · subst he
              simp only at hge
              rw [hf] at hge
              cases hge
            · exact h g he e hge
          · intro h g hg e hge
            exact h g (List.mem_cons_of_mem _ hg) e hge
      | some e =>
          obtain ⟨ename, tg, pdesc⟩ := e
          have hename : ename = cname := (findCtor_mem hf).2
          rw [hename] at hf
          cases hp : buildPlan cty pdesc with
          | ok p =>
              simp only [buildCtors, hf, hp]
              rw [ih]
              constructor
              · intro h g hg e2 hge
                rcases List.mem_cons.mp hg with he | he
                · subst he
                  simp only at hge
                  rw [hf] at hge
                  cases hge
                  simp [hp, okB]
                · exact h g he e2 hge
              · intro h g hg e2 hge
                exact h g (List.mem_cons_of_mem _ hg) e2 hge
          | error err =>
              simp only [buildCtors, hf, hp, okB]
              constructor
              · intro h
                cases h
              · intro h
                have := h (cname, ccid, cty) (List.mem_cons_self _ _) (cname, tg, pdesc) hf
                simp only at this
                rw [hp] at this
                cases this

/-
  ## The frame property: a built plan reads only the bytes of its
  ## descriptor-described region
-/

theorem option_mapM_congr {α β : Type} {f g : α → Option β} :
    ∀ {l : List α}, (∀ a ∈ l, f a = g a) → l.mapM f = l.mapM g := by
  intro l
  induction l with
  | nil => intro _; rfl
  | cons a l ih =>
      intro h
      rw [List.mapM_cons, List.mapM_cons, h a (List.mem_cons_self _ _),
        ih (fun x hx => h x (List.mem_cons_of_mem _ hx))]

theorem buildPrim_frame (dst : CPrim) (d : TypeDesc) (p : Plan)
    (h : buildPrim dst d = .ok p) : PlanFrame (sizeOfTy d) p := by
  cases d with
  | prim s =>
      by_cases hs : s = primName dst
      · subst hs
        rw [buildPrim_identity dst] at h
        cases h
        intro b₁ b₂ hagree
        dsimp only
        have := readLE_congr (primWidth dst) b₁ b₂ (by
          rw [← sizeOfTy_primName dst]
          exact hagree)
        rw [this]
      · simp only [buildPrim, if_neg hs] at h
        cases hfind : (widenings dst).find? (fun e => e.1 == s) with
        | none =>
            rw [hfind] at h
            cases h
        | some e =>
            rw [hfind] at h
            cases h
            have hmem : e ∈ widenings dst := List.mem_of_find?_eq_some hfind
            have hes : e.1 = s := by simpa using List.find?_some hfind
            intro b₁ b₂ hagree
            dsimp only
            have := readLE_congr (primWidth e.2) b₁ b₂ (by
              rw [← widening_width dst e hmem, hes]
              exact hagree)
            rw [this]
  | nat n => simp only [buildPrim] at h; cases h
  | farr a b => simp only [buildPrim] at h; cases h
  | struct fs => simp only [buildPrim] at h; cases h
  | variant cs => simp only [buildPrim] at h; cases h

theorem applyArr_frame (ep : Plan) (step n sz : Nat)
    (hef : PlanFrame sz ep) (hsz : sz ≤ step) :
    PlanFrame (n * step) (applyArr ep step n) := by
  intro b₁ b₂ hagree
  unfold applyArr
  have : (List.range n).mapM (fun i => ep (shiftBuf b₁ (i * step))) =
      (List.range n).mapM (fun i => ep (shiftBuf b₂ (i * step))) := by
    apply option_mapM_congr
    intro i hi
    have hin : i < n := List.mem_range.mp hi
    apply hef
    intro j hj
    show b₁ (j + i * step) = b₂ (j + i * step)
    apply hagree
    have h1 : j + i * step < (i + 1) * step := by
      have : (i + 1) * step = i * step + step := by ring
      omega
    have h2 : (i + 1) * step ≤ n * step := Nat.mul_le_mul_right _ (by omega)
    omega
  rw [this]

theorem plan_frame : ∀ (t : CTarget) (d : TypeDesc) (p : Plan),
    buildPlan t d = .ok p → PlanFrame (sizeOfTy d) p := by
  intro t d
  induction t, d using buildPlan.induct
    (motive_2 := fun cs dcs st => ∀ vc, buildCtors cs dcs st = .ok vc →
      (st.maxAlign = 1 ∨ st.maxAlign = 2 ∨ st.maxAlign = 4 ∨ st.maxAlign = 8) →
      st.maxAlign ≤ ctorsAlign dcs →
      st.srcPayloadOffset ≤ alignTo 4 (ctorsAlign dcs) →
      (∀ tag cid pl, lookupTag st.ctors tag = some (cid, pl) →
        ∃ sz, sz ≤ ctorsSize dcs ∧ PlanFrame sz pl) →
      vc.srcPayloadOffset ≤ alignTo 4 (ctorsAlign dcs) ∧
      (∀ tag cid pl, lookupTag vc.ctors tag = some (cid, pl) →
        ∃ sz, sz ≤ ctorsSize dcs ∧ PlanFrame sz pl))
    (motive_3 := fun fs dfs => ∀ entries, buildFields fs dfs = .ok entries →
      ∀ b₁ b₂ : Bytes, (∀ j, j < fieldsEnd dfs → b₁ j = b₂ j) →
      entries.mapM (fun (e : Nat × Plan) => e.2 (shiftBuf b₁ e.1)) =
      entries.mapM (fun (e : Nat × Plan) => e.2 (shiftBuf b₂ e.1)))
  -- 1: primitive targets
  next pk dd =>
    intro p h
    simp only [buildPlan] at h
    exact buildPrim_frame pk dd p h
  -- 2: array, element plan built
  next eT ed n ep hok ih =>
    intro p h
    simp only [buildPlan, if_pos rfl, hok] at h
    cases h
    simp only [sizeOfTy]
    exact applyArr_frame ep (sizeOfTy ed) n (sizeOfTy ed) (ih ep hok) (Nat.le_refl _)
  -- 3: array, element plan failed
  next eT ed n err herr ih =>
    intro p h
    simp only [buildPlan, if_pos rfl, herr] at h
    cases h
  -- 4: array, length mismatch
  next eT n ed n1 hne =>
    intro p h
    simp only [buildPlan] at h
    rw [if_neg hne] at h
    cases h
  -- 5: array, length not a size node
  next eT n ed ld hld =>
    intro p h
    cases ld with
    | nat m => exact absurd rfl (hld m)
    | prim s => simp only [buildPlan] at h; cases h
    | farr a b => simp only [buildPlan] at h; cases h
    | struct fs => simp only [buildPlan] at h; cases h
    | variant cs => simp only [buildPlan] at h; cases h
  -- 6: array, descriptor not a fixed array
  next eT n dd hd =>
    intro p h
    cases dd with
    | farr a b => exact absurd rfl (hd a b)
    | prim s => simp only [buildPlan] at h; cases h
    | nat m => simp only [buildPlan] at h; cases h
    | struct fs => simp only [buildPlan] at h; cases h
    | variant cs => simp only [buildPlan] at h; cases h
  -- 7: record, field table built
  next fs dfs entries hok ih =>
    intro p h
    obtain ⟨en, hen, hpe⟩ := buildPlan_record_plan h
    subst hpe
    simp only [sizeOfTy]
    intro b₁ b₂ hagree
    unfold applyStruct
    rw [ih en hen b₁ b₂ hagree]
  -- 8: record, field table failed
  next fs dfs err herr ih =>
    intro p h
    simp only [buildPlan, herr] at h
    cases h
  -- 9: record, descriptor not a struct
  next fs dd hd =>
    intro p h
    cases dd with
    | struct dfs => exact absurd rfl (hd dfs)
    | prim s => simp only [buildPlan] at h; cases h
    | nat m => simp only [buildPlan] at h; cases h
    | farr a b => simp only [buildPlan] at h; cases h
    | variant cs => simp only [buildPlan] at h; cases h
  -- 10: union, dispatch table built
  next cs dcs vc hok ih =>
    intro p h
    obtain ⟨vc2, hvc, hpe⟩ := buildPlan_union_plan h
    rw [hok] at hvc
    cases hvc
    subst hpe
    have hinit := ih vc hok (Or.inl rfl) (ctorsAlign_pos dcs)
      (alignTo4_ge _ (ctorsAlign_pos dcs))
      (by intro tag cid pl hl; simp [lookupTag] at hl)
    obtain ⟨hoff, htab⟩ := hinit
    simp only [sizeOfTy]
    intro b₁ b₂ hagree
    unfold applyVariant
    have h4le : 4 ≤ alignTo 4 (ctorsAlign dcs) := alignTo4_ge _ (ctorsAlign_pos dcs)
    have htag : readLE b₁ 4 = readLE b₂ 4 :=
      readLE_congr 4 b₁ b₂ (fun j hj => hagree j (by omega))
    rw [htag]
    cases hl : lookupTag vc.ctors (readLE b₂ 4) with
    | none => rfl
    | some cp =>
        obtain ⟨cid, pl⟩ := cp
        obtain ⟨sz, hszle, hfr⟩ := htab _ _ _ hl
        have heq : pl (shiftBuf b₁ vc.srcPayloadOffset) =
            pl (shiftBuf b₂ vc.srcPayloadOffset) := by
          apply hfr
          intro j hj
          show b₁ (j + vc.srcPayloadOffset) = b₂ (j + vc.srcPayloadOffset)
          apply hagree
          omega
        simp only [heq]
  -- 11: union, dispatch table failed
  next cs dcs err herr ih =>
    intro p h
    simp only [buildPlan, herr] at h
    cases h
  -- 12: union, descriptor not a variant
  next cs dd hd =>
    intro p h
    cases dd with
    | variant dcs => exact absurd rfl (hd dcs)
    | prim s => simp only [buildPlan] at h; cases h
    | nat m => simp only [buildPlan] at h; cases h
    | farr a b => simp only [buildPlan] at h; cases h
    | struct dfs => simp only [buildPlan] at h; cases h
  -- 13: field walk, no more fields
  next =>
    rename_i dfs entries h b₁ b₂ hagree
    simp only [buildFields] at h
    cases h
    rfl
  -- 14: field walk, name missing
  next =>
    rename_i fname fty fs dfs hnone entries h b₁ b₂ hagree
    simp only [buildFields, hnone] at h
    cases h
  -- 15: field walk, field plan and rest built
  next =>
    rename_i fname fty fs dfs nm off dty hfind ep hep entries hrest ih1 ih3 entries2 h b₁ b₂ hagree
    simp only [buildFields, hfind, hep, hrest] at h
    cases h
    rw [List.mapM_cons, List.mapM_cons]
    have hmem := (findField_mem hfind).1
    have hbound := fieldsEnd_bound hmem
    simp only at hbound
    have hhead : ep (shiftBuf b₁ off) = ep (shiftBuf b₂ off) := by
      apply ih1 ep hep
      intro j hj
      show b₁ (j + off) = b₂ (j + off)
      apply hagree
      omega
    dsimp only
    rw [hhead, ih3 entries hrest b₁ b₂ hagree]
  -- 16: field walk, rest failed
  next =>
    rename_i fname fty fs dfs nm off dty hfind ep hep err hrest ih1 ih3 entries h b₁ b₂ hagree
    simp only [buildFields, hfind, hep, hrest] at h
    cases h
  -- 17: field walk, field plan failed
  next =>
    rename_i fname fty fs dfs nm off dty hfind err hep ih1 entries h b₁ b₂ hagree
    simp only [buildFields, hfind, hep] at h
    cases h
  -- 18: ctor walk, no more ctors
  next =>
    rename_i dcs st vc h hset hle hoffle htab
    simp only [buildCtors] at h
    cases h
    exact ⟨hoffle, htab⟩
  -- 19: ctor walk, name unmatched
  next =>
    rename_i cname cid cty cs dcs st hnone ih vc h hset hle hoffle htab
    simp only [buildCtors, hnone] at h
    exact ih vc h hset hle hoffle htab
  -- 20: ctor walk, payload plan built
  next =>
    rename_i cname cid cty cs dcs st nm tg dty hfind ma ep hep ih1 ih2 vc h hset hle hoffle htab
    simp only [buildCtors, hfind, hep] at h
    have hmem := (findCtor_mem hfind).1
    have hdtyal := ctorsAlign_bound hmem
    simp only at hdtyal
    have hsz := ctorsSize_bound hmem
    simp only at hsz
    have hda := alignOfTy_cases dty
    have hca := ctorsAlign_cases dcs
    have hset2 : max st.maxAlign (alignOfTy dty) = 1 ∨ max st.maxAlign (alignOfTy dty) = 2 ∨
        max st.maxAlign (alignOfTy dty) = 4 ∨ max st.maxAlign (alignOfTy dty) = 8 := by
      omega
    have hle2 : max st.maxAlign (alignOfTy dty) ≤ ctorsAlign dcs := by omega
    have hoffle2 : alignTo 4 (max st.maxAlign (alignOfTy dty)) ≤
        alignTo 4 (ctorsAlign dcs) := by
      rw [alignTo4_eq_max hset2, alignTo4_eq_max hca]
      omega
    have htab2 : ∀ tag cid2 pl,
        lookupTag (insertTag st.ctors tg (cid, ep)) tag = some (cid2, pl) →
        ∃ sz, sz ≤ ctorsSize dcs ∧ PlanFrame sz pl := by
      intro tag cid2 pl hl
      rw [lookupTag_insert] at hl
      by_cases htg : tag = tg
      · rw [if_pos htg] at hl
        have hple : cid2 = cid ∧ pl = ep := by
          cases hl
          exact ⟨rfl, rfl⟩
        exact ⟨sizeOfTy dty, hsz, hple.2 ▸ ih1 ep hep⟩
      · rw [if_neg htg] at hl
        exact htab tag cid2 pl hl
    have := ih2 vc h hset2 hle2 hoffle2 htab2
    exact ⟨this.1, fun tag cid2 pl hl => this.2 tag cid2 pl hl⟩
  -- 21: ctor walk, payload plan failed
  next =>
    rename_i cname cid cty cs dcs st nm tg dty hfind err herr ih1 vc h hset hle hoffle htab
    simp only [buildCtors, hfind, herr] at h
    cases h

/-
  ###################################################################
  ## Claim theorems
  ###################################################################
-/

/--
  C1 counterexample: the claim asserts every accepted widening is a
  value-preserving cast producing a mathematically equal value.  At
  target unsigned int (an "int" instantiation) from source "short",
  the buffer 0xFFFF reads as the short value -1, and the plan stores
  4294967295, which is mathematically equal neither to -1 nor to the
  unsigned reading 65535 of the source bytes.
-/
theorem c1_claim_counterexample :
    runConv (.prim .cu32) (.prim "short") (bytesOf [255, 255]) =
      .ok (some (.prim 4294967295)) ∧
    decodeInt .ci16 (readLE (bytesOf [255, 255]) 2) = -1 ∧
    decodeInt .cu32 4294967295 = 4294967295 ∧
    ¬ ((4294967295 : Int) = -1) ∧ ¬ ((4294967295 : Int) = 65535) := by
  refine ⟨by rfl, by decide, by decide, by decide, by decide⟩

/--
  C1 (amended): for every target primitive kind and Primitive
  descriptor, buildPlan succeeds exactly when the source name equals
  the target name or lies in the accepted widening set of the 4.2
  table; the identity pairing copies the underlying bytes; an accepted
  widening pairing performs the C++ static_cast, whose result is
  mathematically equal to the source value whenever that value is
  representable in the target type (integral targets: in range; float
  and double targets: exactly representable in the mantissa; float to
  double: always); every other pairing fails with UnknownPrimitive.
-/
theorem c1_primitive_conversion (dst : CPrim) (s : String) :
    (okB (buildPlan (.prim dst) (.prim s)) = true ↔
      (s = primName dst ∨ s ∈ acceptedNames dst))
    ∧ buildPlan (.prim dst) (.prim (primName dst)) =
        .ok (fun b => some (.prim (readLE b (primWidth dst))))
    ∧ (s ≠ primName dst → s ∉ acceptedNames dst →
        buildPlan (.prim dst) (.prim s) =
          .error (.UnknownPrimitive (tyShow (.prim s)) (primTargetName dst)))
    ∧ (∀ e ∈ widenings dst,
        buildPlan (.prim dst) (.prim e.1) =
          .ok (fun b => some (.prim (castBits dst e.2 (readLE b (primWidth e.2))))))
    ∧ (dst ≠ .cf32 → dst ≠ .cf64 → ∀ e ∈ widenings dst, ∀ bits : Nat,
        inRange dst (decodeInt e.2 bits) →
        decodeInt dst (castBits dst e.2 bits) = decodeInt e.2 bits)
    ∧ (∀ e ∈ widenings CPrim.cf32, ∀ bits : Nat,
        roundInt 24 (decodeInt e.2 bits) = decodeInt e.2 bits →
        decodeFP 23 8 127 (castBits .cf32 e.2 bits) = some ((decodeInt e.2 bits : ℚ)))
    ∧ (∀ e ∈ widenings CPrim.cf64, e.2 ≠ .cf32 → ∀ bits : Nat,
        roundInt 53 (decodeInt e.2 bits) = decodeInt e.2 bits →
        decodeFP 52 11 1023 (castBits .cf64 e.2 bits) = some ((decodeInt e.2 bits : ℚ)))
    ∧ (∀ bits : Nat, ∀ qv : ℚ, decodeFP 23 8 127 bits = some qv →
        decodeFP 52 11 1023 (castBits .cf64 .cf32 bits) = some qv) := by
  refine ⟨?_, ?_, ?_, ?_, ?_, ?_, ?_, ?_⟩
  · exact buildPrim_ok_iff dst s
  · exact buildPrim_identity dst
  · intro h1 h2
    exact buildPrim_unknown dst s h1 h2
  · intro e he
    exact buildPrim_widening dst he
  · intro h32 h64 e he bits hr
    exact castBits_value_int dst e.2 h32 h64 bits hr
  · intro e he bits hr
    have hf : e.2 ≠ .cf32 :=
      (by decide : ∀ x ∈ widenings CPrim.cf32, x.2 ≠ CPrim.cf32) e he
    exact castBits_value_f32 e.2 hf bits hr
  · intro e he hne bits hr
    exact castBits_value_f64 e.2 hne bits hr
  · intro bits qv h
    exact castBits_value_f32_to_f64 bits qv h

/--
  C1 witness: the amended claim applied at target long from source
  short (success, and value preservation at the in-range value -32768)
  and at target bool from source int (the UnknownPrimitive failure).
-/
theorem c1_primitive_conversion_witness :
    okB (buildPlan (.prim .ci64) (.prim "short")) = true ∧
    decodeInt .ci64 (castBits .ci64 .ci16 32768) = -32768 ∧
    buildPlan (.prim .cbool) (.prim "int") =
      .error (.UnknownPrimitive "int" "bool") := by
  refine ⟨?_, ?_, ?_⟩
  · exact (c1_primitive_conversion .ci64 "short").1.mpr (Or.inr (by decide))
  · have h := (c1_primitive_conversion .ci64 "short").2.2.2.2.1 (by decide) (by decide)
      ("short", .ci16) (by decide) 32768 (by decide)
    rw [h]
    decide
  · exact (c1_primitive_conversion .cbool "int").2.2.1 (by decide) (by decide)

/--
  C2 counterexample: the claim asserts buildPlan succeeds as soon as
  every destination field name occurs among the descriptor fields.
  Here the single destination field name a occurs in the descriptor,
  yet construction fails, because the matched descriptor field has
  struct type while the destination field needs an int: the recursive
  resolution raises a kind mismatch.
-/
theorem c2_claim_counterexample :
    (∀ f ∈ [("a", CTarget.prim .ci32)], ∃ e ∈ [("a", 0, TypeDesc.struct [])], e.1 = f.1) ∧
    buildPlan (.record [("a", .prim .ci32)]) (.struct [("a", 0, .struct [])]) =
      .error (.KindMismatch (tyShow (.struct [])) (some (primTargetName .ci32))) := by
  constructor
  · intro f hf
    exact ⟨("a", 0, TypeDesc.struct []), List.mem_cons_self _ _, by
      rcases List.mem_cons.mp hf with h | h
      · rw [h]
      · cases h⟩
  · rfl

/--
  C2 (amended): struct plan construction matches destination fields to
  descriptor fields by name only, order-independently, ignoring extra
  descriptor fields; buildPlan succeeds exactly when every destination
  field has a same-named descriptor field whose type recursively
  converts to the destination field type; when every field before some
  destination field resolves and that field has no same-named
  descriptor field, buildPlan fails with MissingField for it; on any
  failure no plan is returned.
-/
theorem c2_struct_field_matching (fs : List (String × CTarget))
    (dfs : List (String × Nat × TypeDesc)) :
    (okB (buildPlan (.record fs) (.struct dfs)) = true ↔
      ∀ f ∈ fs, ∃ off dty, findField dfs f.1 = some (f.1, off, dty) ∧
        okB (buildPlan f.2 dty) = true)
    ∧ (∀ n, (findField dfs n).isSome = true ↔ ∃ e ∈ dfs, e.1 = n)
    ∧ (∀ fs₁ f fs₂, fs = fs₁ ++ f :: fs₂ →
        (∀ g ∈ fs₁, ∃ off dty, findField dfs g.1 = some (g.1, off, dty) ∧
          okB (buildPlan g.2 dty) = true) →
        findField dfs f.1 = none →
        buildPlan (.record fs) (.struct dfs) = .error (.MissingField f.1))
    ∧ (∀ err, buildPlan (.record fs) (.struct dfs) = .error err →
        ∀ p, buildPlan (.record fs) (.struct dfs) ≠ .ok p) := by
  refine ⟨?_, ?_, ?_, ?_⟩
  · rw [buildPlan_record_ok]
    exact buildFields_ok_iff fs dfs
  · intro n
    unfold findField
    rw [List.find?_isSome]
    constructor
    · intro ⟨x, hx, hpx⟩
      exact ⟨x, hx, by simpa using hpx⟩
    · intro ⟨x, hx, hpx⟩
      exact ⟨x, hx, by simpa using hpx⟩
  · intro fs₁ f fs₂ hsplit hgood hmiss
    subst hsplit
    have hbf := buildFields_missing fs₁ fs₂ f dfs hgood hmiss
    simp only [buildPlan, hbf]
  · intro err herr p hok
    rw [herr] at hok
    cases hok

/--
  C2 witness: the order-swapped example of the claim succeeds, and a
  destination field missing from the descriptor fails with
  MissingField.
-/
theorem c2_struct_field_matching_witness :
    okB (buildPlan (.record [("a", .prim .cchar), ("b", .prim .ci32)])
      (.struct [("b", 0, .prim "int"), ("a", 4, .prim "char")])) = true ∧
    buildPlan (.record [("a", .prim .cchar), ("c", .prim .ci32)])
      (.struct [("b", 0, .prim "int"), ("a", 4, .prim "char")]) =
      .error (.MissingField "c") := by
  constructor
  · apply (c2_struct_field_matching _ _).1.mpr
    intro f hf
    rcases List.mem_cons.mp hf with h | h
    · subst h
      exact ⟨4, .prim "char", rfl, rfl⟩
    · rcases List.mem_cons.mp h with h2 | h2
      · subst h2
        exact ⟨0, .prim "int", rfl, rfl⟩
      · cases h2
  · apply (c2_struct_field_matching _ _).2.2.1 [("a", .prim .cchar)] ("c", .prim .ci32) [] rfl
    · intro g hg
      rcases List.mem_cons.mp hg with h | h
      · subst h
        exact ⟨4, .prim "char", rfl, rfl⟩
      · cases h
    · rfl

/--
  C3: the payload offset of a built variant plan is the single value
  align(4, maximum payload alignment over the name-matched
  constructors, taken as 1 when none matches), and apply uses that one
  offset for every dispatch entry regardless of the live tag.
-/
theorem c3_variant_payload_offset (cs : List (String × Nat × CTarget))
    (dcs : List (String × Nat × TypeDesc)) (p : Plan)
    (h : buildPlan (.union cs) (.variant dcs) = .ok p) :
    ∃ vc, buildCtors cs dcs ⟨[], 4, 1⟩ = .ok vc ∧ p = applyVariant vc ∧
      vc.maxAlign = matchedMaxAlign cs dcs ∧
      vc.srcPayloadOffset = alignTo 4 (matchedMaxAlign cs dcs) ∧
      (∀ b : Bytes, p b =
        match lookupTag vc.ctors (readLE b 4) with
        | none => none
        | some cp =>
            (cp.2 (shiftBuf b (alignTo 4 (matchedMaxAlign cs dcs)))).map (Value.union cp.1)) := by
  obtain ⟨vc, hvc, hpe⟩ := buildPlan_union_plan h
  have hmax : vc.maxAlign = matchedMaxAlign cs dcs := buildCtors_maxAlign dcs cs _ vc hvc
  have hoff : vc.srcPayloadOffset = alignTo 4 vc.maxAlign :=
    buildCtors_offset dcs cs _ vc hvc (by rfl)
  refine ⟨vc, hvc, hpe, hmax, by rw [hoff, hmax], ?_⟩
  intro b
  rw [hpe]
  unfold applyVariant
  rw [show alignTo 4 (matchedMaxAlign cs dcs) = vc.srcPayloadOffset from by rw [hoff, hmax]]

/--
  C3 witness: the Ok and Err constructor pair over int and char payloads
  gives maximum matched alignment 4 and payload offset align(4,4) = 4.
-/
theorem c3_variant_payload_offset_witness :
    ∃ p vc, buildPlan
        (.union [("Ok", 0, CTarget.prim .ci32), ("Err", 1, CTarget.prim .cchar)])
        (.variant [("Ok", 0, TypeDesc.prim "int"), ("Err", 1, TypeDesc.prim "char")]) = .ok p ∧
      buildCtors [("Ok", 0, CTarget.prim .ci32), ("Err", 1, CTarget.prim .cchar)]
        [("Ok", 0, TypeDesc.prim "int"), ("Err", 1, TypeDesc.prim "char")] ⟨[], 4, 1⟩ = .ok vc ∧
      vc.srcPayloadOffset = 4 ∧ vc.maxAlign = 4 := by
  cases hb : buildPlan
      (.union [("Ok", 0, CTarget.prim .ci32), ("Err", 1, CTarget.prim .cchar)])
      (.variant [("Ok", 0, TypeDesc.prim "int"), ("Err", 1, TypeDesc.prim "char")]) with
  | error err =>
      have hcontra : okB (buildPlan
          (.union [("Ok", 0, CTarget.prim .ci32), ("Err", 1, CTarget.prim .cchar)])
          (.variant [("Ok", 0, TypeDesc.prim "int"), ("Err", 1, TypeDesc.prim "char")])) =
          true := by rfl
      rw [hb] at hcontra
      cases hcontra
  | ok p =>
      obtain ⟨vc, h1, h2, h3, h4, h5⟩ := c3_variant_payload_offset _ _ p hb
      refine ⟨p, vc, rfl, h1, ?_, ?_⟩
      · rw [h4]
        rfl
      · rw [h3]
        rfl

/--
  C4 counterexample: the claim asserts buildPlan succeeds whenever
  some destination constructor is unmatched.  Here Extra is unmatched
  (and should be skipped), but the matched constructor Ok has a struct
  payload descriptor that does not convert to int, so construction
  fails.
-/
theorem c4_claim_counterexample :
    (∃ c ∈ [("Ok", 0, CTarget.prim .ci32), ("Extra", 1, CTarget.prim .ci32)],
      findCtor [("Ok", 0, TypeDesc.struct [])] c.1 = none) ∧
    buildPlan (.union [("Ok", 0, .prim .ci32), ("Extra", 1, .prim .ci32)])
      (.variant [("Ok", 0, .struct [])]) =
      .error (.KindMismatch (tyShow (.struct [])) (some (primTargetName .ci32))) := by
  constructor
  · refine ⟨("Extra", 1, CTarget.prim .ci32), ?_, rfl⟩
    exact List.mem_cons_of_mem _ (List.mem_cons_self _ _)
  · rfl

/--
  C4 (amended): buildPlan on a union target succeeds exactly when
  every name-matched constructor payload recursively converts, so an
  unmatched destination constructor is skipped and is no error; each
  dispatch entry comes from a name-matched descriptor constructor and
  stores its destination constructor id and payload plan under the
  descriptor tag; a buffer whose leading tag hits an entry gets that
  destination tag id and its payload converted at the shared offset;
  in particular tag 0 holding int 42 yields Ok 42 and tag 1 holding
  char x yields Err x in the Ok/Err example.
-/
theorem c4_variant_ctor_matching (cs : List (String × Nat × CTarget))
    (dcs : List (String × Nat × TypeDesc)) :
    (okB (buildPlan (.union cs) (.variant dcs)) = true ↔
      ∀ c ∈ cs, ∀ e, findCtor dcs c.1 = some e → okB (buildPlan c.2.2 e.2.2) = true)
    ∧ (∀ p, buildPlan (.union cs) (.variant dcs) = .ok p →
        ∃ vc, buildCtors cs dcs ⟨[], 4, 1⟩ = .ok vc ∧
          (∀ tag cid pl, lookupTag vc.ctors tag = some (cid, pl) →
            ∃ c ∈ cs, ∃ pdesc, findCtor dcs c.1 = some (c.1, tag, pdesc) ∧
              cid = c.2.1 ∧ buildPlan c.2.2 pdesc = .ok pl)
          ∧ (∀ (b : Bytes) tag cid pl, readLE b 4 = tag →
              lookupTag vc.ctors tag = some (cid, pl) →
              p b = (pl (shiftBuf b vc.srcPayloadOffset)).map (Value.union cid)))
    ∧ runConv (.union [("Ok", 0, .prim .ci32), ("Err", 1, .prim .cchar)])
        (.variant [("Ok", 0, .prim "int"), ("Err", 1, .prim "char")])
        (bytesOf [0, 0, 0, 0, 42, 0, 0, 0]) = .ok (some (.union 0 (.prim 42)))
    ∧ runConv (.union [("Ok", 0, .prim .ci32), ("Err", 1, .prim .cchar)])
        (.variant [("Ok", 0, .prim "int"), ("Err", 1, .prim "char")])
        (bytesOf [1, 0, 0, 0, 120]) = .ok (some (.union 1 (.prim 120))) := by
  refine ⟨?_, ?_, by rfl, by rfl⟩
  · rw [buildPlan_union_ok]
    exact buildCtors_ok_iff dcs cs _
  · intro p h
    obtain ⟨vc, hvc, hpe⟩ := buildPlan_union_plan h
    refine ⟨vc, hvc, ?_, ?_⟩
    · intro tag cid pl hl
      rcases buildCtors_lookup_src dcs cs _ vc hvc tag cid pl hl with h1 | h1
      · simp [lookupTag] at h1
      · exact h1
    · intro b tag cid pl htag hl
      rw [hpe]
      unfold applyVariant
      rw [htag, hl]

/--
  C4 witness: a destination union with an extra unmatched constructor
  still builds (the unmatched constructor is skipped), and the claim
  theorem dispatch form reproduces a concrete conversion.
-/
theorem c4_variant_ctor_matching_witness :
    okB (buildPlan (.union [("Ok", 0, .prim .ci32), ("Missing", 7, .prim .cchar)])
      (.variant [("Ok", 0, .prim "int")])) = true := by
  apply (c4_variant_ctor_matching _ _).1.mpr
  intro c hc e he
  rcases List.mem_cons.mp hc with h | h
  · subst h
    simp only [findCtor, List.find?] at he
    cases he
    rfl
  · rcases List.mem_cons.mp h with h2 | h2
    · subst h2
      simp only [findCtor, List.find?] at he
      cases he
    · cases h2

/--
  C5 counterexample: the claim asserts a lookup miss is impossible for
  any buffer whose leading tag is the tag of one of the descriptor
  constructors.  Here tag 5 belongs to the descriptor constructor
  Extra, which has no same-named destination constructor, so the
  dispatch table is empty: the plan builds, and apply on the
  well-formed buffer reaches the miss branch (modelled as none).
-/
theorem c5_claim_counterexample :
    ((5 : Nat) ∈ [("Extra", 5, TypeDesc.prim "int")].map (fun c => c.2.1)) ∧
    runConv (.union [("Ok", 0, .prim .ci32)]) (.variant [("Extra", 5, .prim "int")])
      (bytesOf [5, 0, 0, 0, 1, 0, 0, 0]) = .ok none := by
  exact ⟨by decide, by rfl⟩

/--
  C5 (amended): on a correctly built variant plan, the dispatch-table
  lookup cannot miss for any buffer whose leading 4-byte tag is a tag
  some name-matched constructor contributed to the table: for such a
  tag the lookup yields an entry and apply takes the conversion
  branch, never the miss branch.
-/
theorem c5_variant_no_miss (cs : List (String × Nat × CTarget))
    (dcs : List (String × Nat × TypeDesc)) (p : Plan)
    (h : buildPlan (.union cs) (.variant dcs) = .ok p) :
    ∃ vc, buildCtors cs dcs ⟨[], 4, 1⟩ = .ok vc ∧ p = applyVariant vc ∧
      ∀ tag, matchedTag cs dcs tag →
        ∃ cid pl, lookupTag vc.ctors tag = some (cid, pl) ∧
          ∀ b : Bytes, readLE b 4 = tag →
            p b = (pl (shiftBuf b vc.srcPayloadOffset)).map (Value.union cid) := by
  obtain ⟨vc, hvc, hpe⟩ := buildPlan_union_plan h
  refine ⟨vc, hvc, hpe, ?_⟩
  intro tag hmt
  have hne := buildCtors_lookup_total dcs cs _ vc hvc tag (Or.inr hmt)
  cases hl : lookupTag vc.ctors tag with
  | none => exact absurd hl hne
  | some cp =>
      obtain ⟨cid0, pl0⟩ := cp
      refine ⟨cid0, pl0, rfl, ?_⟩
      intro b htag
      rw [hpe]
      unfold applyVariant
      rw [htag]
      simp only [hl]

/--
  C5 witness: with the descriptor constructor Ok carrying tag 3
  matched by name, the built plan dispatches a tag-3 buffer to the
  conversion branch, producing the destination value.
-/
theorem c5_variant_no_miss_witness :
    ∃ p vc, buildPlan (.union [("Ok", 0, .prim .ci32)])
        (.variant [("Ok", 3, .prim "int")]) = .ok p ∧
      buildCtors [("Ok", 0, .prim .ci32)] [("Ok", 3, .prim "int")] ⟨[], 4, 1⟩ = .ok vc ∧
      (∃ cid pl, lookupTag vc.ctors 3 = some (cid, pl)) ∧
      p (bytesOf [3, 0, 0, 0, 9, 0, 0, 0]) = some (.union 0 (.prim 9)) := by
  cases hb : buildPlan (.union [("Ok", 0, CTarget.prim .ci32)])
      (.variant [("Ok", 3, TypeDesc.prim "int")]) with
  | error err =>
      have hcontra : okB (buildPlan (.union [("Ok", 0, CTarget.prim .ci32)])
          (.variant [("Ok", 3, TypeDesc.prim "int")])) = true := by rfl
      rw [hb] at hcontra
      cases hcontra
  | ok p =>
      obtain ⟨vc, h1, h2, h3⟩ := c5_variant_no_miss _ _ p hb
      obtain ⟨cid, pl, hl, happ⟩ := h3 3
        ⟨("Ok", 0, .prim .ci32), List.mem_cons_self _ _, .prim "int", rfl⟩
      have hval : p (bytesOf [3, 0, 0, 0, 9, 0, 0, 0]) = some (.union 0 (.prim 9)) := by
        have hrc : runConv (.union [("Ok", 0, CTarget.prim .ci32)])
            (.variant [("Ok", 3, TypeDesc.prim "int")]) (bytesOf [3, 0, 0, 0, 9, 0, 0, 0]) =
            .ok (p (bytesOf [3, 0, 0, 0, 9, 0, 0, 0])) := by
          unfold runConv
          rw [hb]
          rfl
        rw [show runConv (.union [("Ok", 0, CTarget.prim .ci32)])
            (.variant [("Ok", 3, TypeDesc.prim "int")]) (bytesOf [3, 0, 0, 0, 9, 0, 0, 0]) =
            .ok (some (.union 0 (.prim 9))) from rfl] at hrc
        exact (Except.ok.inj hrc).symm
      exact ⟨p, vc, rfl, h1, ⟨cid, pl, hl⟩, hval⟩

/--
  C6: fixed-length sequence targets require a FixedArray descriptor;
  a size-node length different from the target length fails with
  LengthMismatch, a non-size length sub-descriptor fails with
  InvalidLengthDescriptor, and in either failure case no plan is
  returned.
-/
theorem c6_array_length_check (eT : CTarget) (n : Nat) (d : TypeDesc) :
    (∀ ed m, d = .farr ed (.nat m) → m ≠ n →
      buildPlan (.arr eT n) d =
        .error (.LengthMismatch (tyShow d) (targetName (.arr eT n))))
    ∧ (∀ ed ld, d = .farr ed ld → (∀ m, ld ≠ .nat m) →
      buildPlan (.arr eT n) d = .error (.InvalidLengthDescriptor (tyShow d)))
    ∧ ((∀ ed ld, d ≠ .farr ed ld) →
      buildPlan (.arr eT n) d =
        .error (.KindMismatch (tyShow d) (some (targetName (.arr eT n)))))
    ∧ (∀ err, buildPlan (.arr eT n) d = .error err →
        ∀ p, buildPlan (.arr eT n) d ≠ .ok p) := by
  refine ⟨?_, ?_, ?_, ?_⟩
  · intro ed m hd hm
    subst hd
    simp only [buildPlan]
    rw [if_neg hm]
  · intro ed ld hd hnm
    subst hd
    cases ld with
    | nat m => exact absurd rfl (hnm m)
    | prim s => rfl
    | farr a b => rfl
    | struct fs => rfl
    | variant cs => rfl
  · intro hd
    cases d with
    | farr a b => exact absurd rfl (hd a b)
    | prim s => rfl
    | nat m => rfl
    | struct fs => rfl
    | variant cs => rfl
  · intro err herr p hok
    rw [herr] at hok
    cases hok

/--
  C6 witness: the length-4 descriptor against the length-3 target
  fails with LengthMismatch; a prim length sub-descriptor fails with
  InvalidLengthDescriptor; a struct descriptor fails the kind check.
-/
theorem c6_array_length_check_witness :
    buildPlan (.arr (.prim .ci32) 3) (.farr (.prim "int") (.nat 4)) =
      .error (.LengthMismatch (tyShow (.farr (.prim "int") (.nat 4)))
        (targetName (.arr (.prim .ci32) 3))) ∧
    buildPlan (.arr (.prim .ci32) 3) (.farr (.prim "int") (.prim "x")) =
      .error (.InvalidLengthDescriptor (tyShow (.farr (.prim "int") (.prim "x")))) ∧
    buildPlan (.arr (.prim .ci32) 3) (.struct []) =
      .error (.KindMismatch (tyShow (.struct [])) (some (targetName (.arr (.prim .ci32) 3)))) := by
  refine ⟨?_, ?_, ?_⟩
  · exact (c6_array_length_check (.prim .ci32) 3 _).1 (.prim "int") 4 rfl (by decide)
  · exact (c6_array_length_check (.prim .ci32) 3 _).2.1 (.prim "int") (.prim "x") rfl
      (by intro m h; cases h)
  · exact (c6_array_length_check (.prim .ci32) 3 _).2.2.1 (by intro ed ld h; cases h)

/--
  C7: a successfully built fixed-array plan converts exactly N
  elements, element i from the source bytes at offset i times the
  element stride byteSizeOf of the element descriptor, computed once
  at build time; the length-3 int plan applied to an int-encoded
  1,2,3 yields 1,2,3.
-/
theorem c7_array_apply (eT : CTarget) (n : Nat) (ed : TypeDesc) (p ep : Plan)
    (h : buildPlan (.arr eT n) (.farr ed (.nat n)) = .ok p)
    (hep : buildPlan eT ed = .ok ep) :
    p = applyArr ep (sizeOfTy ed) n
    ∧ (∀ b, p b =
        ((List.range n).mapM (fun i => ep (shiftBuf b (i * sizeOfTy ed)))).map Value.arr)
    ∧ (∀ b vs, p b = some (.arr vs) → vs.length = n ∧
        ∀ i (hi : i < vs.length), ep (shiftBuf b (i * sizeOfTy ed)) = some (vs.get ⟨i, hi⟩))
    ∧ runConv (.arr (.prim .ci32) 3) (.farr (.prim "int") (.nat 3))
        (bytesOf [1, 0, 0, 0, 2, 0, 0, 0, 3, 0, 0, 0]) =
        .ok (some (.arr [.prim 1, .prim 2, .prim 3])) := by
  have hpe : p = applyArr ep (sizeOfTy ed) n := by
    simp only [buildPlan, if_pos rfl, hep] at h
    exact (Except.ok.inj h).symm
  refine ⟨hpe, ?_, ?_, by rfl⟩
  · intro b
    rw [hpe]
    rfl
  · intro b vs hbv
    rw [hpe] at hbv
    unfold applyArr at hbv
    cases hm : (List.range n).mapM (fun i => ep (shiftBuf b (i * sizeOfTy ed))) with
    | none =>
        rw [hm] at hbv
        cases hbv
    | some vs2 =>
        rw [hm] at hbv
        have hvs : vs2 = vs := by
          have := Option.some.inj hbv
          cases this
          rfl
    
        subst hvs
        have hfa := (option_mapM_eq_some _ _ _).mp hm
        have hlen := hfa.length_eq
        rw [List.length_range] at hlen
        constructor
        · omega
        · intro i hi
          have hget := (List.forall₂_iff_get.mp hfa).2 i (by simpa using by omega) hi
          rw [List.get_range] at hget
          exact hget

/--
  C7 witness: the general element formula applied to the length-3 int
  plan at the concrete 1,2,3 buffer, recovering element 1 at offset 4.
-/
theorem c7_array_apply_witness :
    ∃ p ep, buildPlan (.arr (.prim .ci32) 3) (.farr (.prim "int") (.nat 3)) = .ok p ∧
      buildPlan (.prim .ci32) (.prim "int") = .ok ep ∧
      p = applyArr ep (sizeOfTy (.prim "int")) 3 ∧
      ep (shiftBuf (bytesOf [1, 0, 0, 0, 2, 0, 0, 0, 3, 0, 0, 0]) 4) = some (.prim 2) := by
  cases hb : buildPlan (.arr (.prim .ci32) 3) (.farr (.prim "int") (.nat 3)) with
  | error err =>
      have hcontra : okB (buildPlan (.arr (.prim .ci32) 3)
          (.farr (.prim "int") (.nat 3))) = true := by rfl
      rw [hb] at hcontra
      cases hcontra
  | ok p =>
      cases hep : buildPlan (.prim .ci32) (.prim "int") with
      | error err =>
          have hcontra : okB (buildPlan (CTarget.prim .ci32) (.prim "int")) = true := by rfl
          rw [hep] at hcontra
          cases hcontra
      | ok ep =>
          obtain ⟨h1, h2, h3, h4⟩ := c7_array_apply (.prim .ci32) 3 (.prim "int") p ep hb hep
          refine ⟨p, ep, rfl, rfl, h1, ?_⟩
          have hev : runConv (.prim .ci32) (.prim "int")
              (shiftBuf (bytesOf [1, 0, 0, 0, 2, 0, 0, 0, 3, 0, 0, 0]) 4) =
              .ok (some (.prim 2)) := by rfl
          unfold runConv at hev
          rw [hep] at hev
          exact Except.ok.inj hev

/--
  C8 counterexample: the claim asserts every kind mismatch carries
  both a rendering of the descriptor and the target type name; the
  record-target kind mismatch of convert.H line 223 interpolates only
  the rendering, so no target name is carried.
-/
theorem c8_claim_counterexample :
    buildPlan (.record [("a", .prim .ci32)]) (.prim "int") =
      .error (.KindMismatch "int" none) ∧
    (∀ s, ConvError.KindMismatch "int" none ≠ .KindMismatch "int" (some s)) := by
  refine ⟨rfl, ?_⟩
  intro s h
  exact Option.noConfusion (ConvError.KindMismatch.inj h).2

/--
  C8 (amended): a descriptor whose tag does not match the category the
  target requires fails with KindMismatch and no plan is returned; the
  error carries a rendering of the descriptor, and for primitive and
  fixed-array targets also the target type name, while the record and
  union kind mismatches carry the rendering only.
-/
theorem c8_kind_mismatch :
    (∀ (pk : CPrim) (d : TypeDesc), (∀ s, d ≠ .prim s) →
      buildPlan (.prim pk) d =
        .error (.KindMismatch (tyShow d) (some (primTargetName pk))))
    ∧ (∀ (eT : CTarget) (n : Nat) (d : TypeDesc), (∀ ed ld, d ≠ .farr ed ld) →
      buildPlan (.arr eT n) d =
        .error (.KindMismatch (tyShow d) (some (targetName (.arr eT n)))))
    ∧ (∀ (fs : List (String × CTarget)) (d : TypeDesc), (∀ dfs, d ≠ .struct dfs) →
      buildPlan (.record fs) d = .error (.KindMismatch (tyShow d) none))
    ∧ (∀ (cs : List (String × Nat × CTarget)) (d : TypeDesc), (∀ dcs, d ≠ .variant dcs) →
      buildPlan (.union cs) d = .error (.KindMismatch (tyShow d) none))
    ∧ (∀ (t : CTarget) (d : TypeDesc) err, buildPlan t d = .error err →
        ∀ p, buildPlan t d ≠ .ok p) := by
  refine ⟨?_, ?_, ?_, ?_, ?_⟩
  · intro pk d hd
    exact buildPrim_kind pk d hd
  · intro eT n d hd
    cases d with
    | farr a b => exact absurd rfl (hd a b)
    | prim s => rfl
    | nat m => rfl
    | struct fs => rfl
    | variant cs => rfl
  · intro fs d hd
    cases d with
    | struct dfs => exact absurd rfl (hd dfs)
    | prim s => rfl
    | nat m => rfl
    | farr a b => rfl
    | variant cs => rfl
  · intro cs d hd
    cases d with
    | variant dcs => exact absurd rfl (hd dcs)
    | prim s => rfl
    | nat m => rfl
    | farr a b => rfl
    | struct dfs => rfl
  · intro t d err herr p hok
    rw [herr] at hok
    cases hok

/--
  C8 witness: the amended claim applied to concrete mismatched
  pairings of every target category.
-/
theorem c8_kind_mismatch_witness :
    buildPlan (.prim .ci32) (.struct []) =
      .error (.KindMismatch (tyShow (.struct [])) (some "int")) ∧
    buildPlan (.arr (.prim .ci32) 2) (.prim "int") =
      .error (.KindMismatch "int" (some (targetName (.arr (.prim .ci32) 2)))) ∧
    buildPlan (.record []) (.variant []) =
      .error (.KindMismatch (tyShow (.variant [])) none) ∧
    buildPlan (.union []) (.struct []) =
      .error (.KindMismatch (tyShow (.struct [])) none) := by
  refine ⟨?_, ?_, ?_, ?_⟩
  · exact c8_kind_mismatch.1 .ci32 (.struct []) (by intro s h; cases h)
  · exact c8_kind_mismatch.2.1 (.prim .ci32) 2 (.prim "int") (by intro ed ld h; cases h)
  · exact c8_kind_mismatch.2.2.1 [] (.variant []) (by intro dfs h; cases h)
  · exact c8_kind_mismatch.2.2.2.1 [] (.struct []) (by intro dcs h; cases h)

/--
  C9: struct field conversions are independent: in a successfully
  built struct plan with pairwise disjoint source regions, two buffers
  that agree on the source region of field i produce the same value at
  destination field i in any two completed runs, however the sibling
  bytes differ.
-/
theorem c9_struct_field_independence
    (fs : List (String × CTarget)) (dfs : List (String × Nat × TypeDesc))
    (entries : List (Nat × Plan)) (h : buildFields fs dfs = .ok entries)
    (hdisj : regionsDisjoint (fieldRegions fs dfs))
    (i off : Nat) (pi : Plan) (hi : i < entries.length)
    (hei : entries.get ⟨i, hi⟩ = (off, pi))
    (dty : TypeDesc) (hf : i < fs.length)
    (hfind : findField dfs (fs.get ⟨i, hf⟩).1 = some ((fs.get ⟨i, hf⟩).1, off, dty))
    (b₁ b₂ : Bytes) (hagree : ∀ j, j < sizeOfTy dty → b₁ (off + j) = b₂ (off + j))
    (vs₁ vs₂ : List Value)
    (h₁ : applyStruct entries b₁ = some (.record vs₁))
    (h₂ : applyStruct entries b₂ = some (.record vs₂)) :
    vs₁.get? i = vs₂.get? i := by
  have hfa := buildFields_forall2 h
  have hrel := (List.forall₂_iff_get.mp hfa).2 i hf hi
  obtain ⟨dty2, hfind2, hplan2⟩ := hrel
  rw [hei] at hfind2 hplan2
  rw [hfind] at hfind2
  have hdty : dty2 = dty := by
    cases hfind2
    rfl
  subst hdty
  have hframe : PlanFrame (sizeOfTy dty2) pi := plan_frame _ _ _ hplan2
  -- extract the mapM results
  unfold applyStruct at h₁ h₂
  cases hm₁ : entries.mapM (fun (e : Nat × Plan) => e.2 (shiftBuf b₁ e.1)) with
  | none => rw [hm₁] at h₁; cases h₁
  | some ws₁ =>
      cases hm₂ : entries.mapM (fun (e : Nat × Plan) => e.2 (shiftBuf b₂ e.1)) with
      | none => rw [hm₂] at h₂; cases h₂
      | some ws₂ =>
          rw [hm₁] at h₁
          rw [hm₂] at h₂
          have hw₁ : ws₁ = vs₁ := by
            have := Option.some.inj h₁
            cases this
            rfl
          have hw₂ : ws₂ = vs₂ := by
            have := Option.some.inj h₂
            cases this
            rfl
          subst hw₁
          subst hw₂
          have hfa₁ := (option_mapM_eq_some _ _ _).mp hm₁
          have hfa₂ := (option_mapM_eq_some _ _ _).mp hm₂
          have hlen₁ := hfa₁.length_eq
          have hlen₂ := hfa₂.length_eq
          have hv₁ := (List.forall₂_iff_get.mp hfa₁).2 i hi (by omega)
          have hv₂ := (List.forall₂_iff_get.mp hfa₂).2 i hi (by omega)
          rw [hei] at hv₁ hv₂
          simp only at hv₁ hv₂
          have hsame : pi (shiftBuf b₁ off) = pi (shiftBuf b₂ off) := by
            apply hframe
            intro j hj
            show b₁ (j + off) = b₂ (j + off)
            rw [Nat.add_comm j off]
            exact hagree j hj
          rw [hsame] at hv₁
          rw [hv₂] at hv₁
          rw [List.get?_eq_get (by omega), List.get?_eq_get (by omega)]
          rw [Option.some.injEq]
          exact (Option.some.inj hv₁).symm

/--
  C9 witness: two buffers agreeing on the int field region at offset
  0 but differing on the char sibling region at offset 4 convert the
  int field to the same destination value.
-/
theorem c9_struct_field_independence_witness :
    ∃ entries,
      buildFields [("x", CTarget.prim .ci32), ("y", CTarget.prim .cchar)]
        [("x", 0, TypeDesc.prim "int"), ("y", 4, TypeDesc.prim "char")] = .ok entries ∧
      ∃ vs₁ vs₂,
        applyStruct entries (bytesOf [7, 0, 0, 0, 65]) = some (.record vs₁) ∧
        applyStruct entries (bytesOf [7, 0, 0, 0, 90]) = some (.record vs₂) ∧
        vs₁.get? 0 = vs₂.get? 0 := by
  cases hb : buildFields [("x", CTarget.prim .ci32), ("y", CTarget.prim .cchar)]
      [("x", 0, TypeDesc.prim "int"), ("y", 4, TypeDesc.prim "char")] with
  | error err =>
      have hcontra : okB (buildFields [("x", CTarget.prim .ci32), ("y", CTarget.prim .cchar)]
          [("x", 0, TypeDesc.prim "int"), ("y", 4, TypeDesc.prim "char")]) = true := by rfl
      rw [hb] at hcontra
      cases hcontra
  | ok entries =>
      have ha₁ : applyStruct entries (bytesOf [7, 0, 0, 0, 65]) =
          some (.record [.prim 7, .prim 65]) := by
        have hr : runConv (.record [("x", CTarget.prim .ci32), ("y", CTarget.prim .cchar)])
            (.struct [("x", 0, TypeDesc.prim "int"), ("y", 4, TypeDesc.prim "char")])
            (bytesOf [7, 0, 0, 0, 65]) = .ok (some (.record [.prim 7, .prim 65])) := by rfl
        unfold runConv at hr
        simp only [buildPlan, hb] at hr
        exact Except.ok.inj hr
      have ha₂ : applyStruct entries (bytesOf [7, 0, 0, 0, 90]) =
          some (.record [.prim 7, .prim 90]) := by
        have hr : runConv (.record [("x", CTarget.prim .ci32), ("y", CTarget.prim .cchar)])
            (.struct [("x", 0, TypeDesc.prim "int"), ("y", 4, TypeDesc.prim "char")])
            (bytesOf [7, 0, 0, 0, 90]) = .ok (some (.record [.prim 7, .prim 90])) := by rfl
        unfold runConv at hr
        simp only [buildPlan, hb] at hr
        exact Except.ok.inj hr
      have hflen : (0 : Nat) <
          [("x", CTarget.prim .ci32), ("y", CTarget.prim .cchar)].length := by simp
      have hlen : 0 < entries.length := by
        have := (buildFields_forall2 hb).length_eq
        simp only [List.length_cons, List.length_nil] at this
        omega
      obtain ⟨dty2, hfind2, hplan2⟩ :=
        (List.forall₂_iff_get.mp (buildFields_forall2 hb)).2 0 hflen hlen
      have hfind0 : findField [("x", 0, TypeDesc.prim "int"), ("y", 4, TypeDesc.prim "char")]
          ([("x", CTarget.prim .ci32), ("y", CTarget.prim .cchar)].get ⟨0, hflen⟩).1 =
          some (([("x", CTarget.prim .ci32), ("y", CTarget.prim .cchar)].get ⟨0, hflen⟩).1,
            0, TypeDesc.prim "int") := rfl
      rw [hfind0] at hfind2
      have h1 := Option.some.inj hfind2
      have he1 : (entries.get ⟨0, hlen⟩).1 = 0 := by
        injection h1 with _ h2
        injection h2 with h3 _
        exact h3.symm
      have hdty : dty2 = .prim "int" := by
        injection h1 with _ h2
        injection h2 with _ h4
        exact h4.symm
      have hdisj0 : regionsDisjoint (fieldRegions
          [("x", CTarget.prim .ci32), ("y", CTarget.prim .cchar)]
          [("x", 0, TypeDesc.prim "int"), ("y", 4, TypeDesc.prim "char")]) := by
        rw [show fieldRegions
            [("x", CTarget.prim .ci32), ("y", CTarget.prim .cchar)]
            [("x", 0, TypeDesc.prim "int"), ("y", 4, TypeDesc.prim "char")] =
            [(0, 4), (4, 1)] from rfl]
        unfold regionsDisjoint
        refine List.Pairwise.cons ?_ (List.Pairwise.cons ?_ List.Pairwise.nil)
        · intro r hr
          rcases List.mem_cons.mp hr with h | h
          · subst h
            left
            decide
          · cases h
        · intro r hr
          cases hr
      refine ⟨entries, rfl, [.prim 7, .prim 65], [.prim 7, .prim 90], ha₁, ha₂, ?_⟩
      apply c9_struct_field_independence
        [("x", CTarget.prim .ci32), ("y", CTarget.prim .cchar)]
        [("x", 0, TypeDesc.prim "int"), ("y", 4, TypeDesc.prim "char")]
        entries hb hdisj0 0 (entries.get ⟨0, hlen⟩).1 (entries.get ⟨0, hlen⟩).2 hlen
        rfl dty2 hflen (by rw [hfind0, ← hfind2]) (bytesOf [7, 0, 0, 0, 65])
        (bytesOf [7, 0, 0, 0, 90]) ?_ _ _ ha₁ ha₂
      intro j hj
      rw [he1, hdty] at *
      rw [Nat.zero_add]
      have hj4 : j < 4 := by
        simpa [sizeOfTy] using hj
      interval_cases j <;> rfl

/--
  C10: when a Struct descriptor has duplicate field names or a Variant
  descriptor has duplicate constructor names, plan construction uses
  the first such field or constructor in declared order (its offset,
  type and tag), and later duplicates are ignored: the linear searches
  namedField and namedCtor return the first match, and the builders
  consume exactly that match.
-/
theorem c10_duplicate_first_wins :
    (∀ (dfs₁ : List (String × Nat × TypeDesc)) (nm : String) (off : Nat) (ty : TypeDesc)
        (dfs₂ : List (String × Nat × TypeDesc)),
      (∀ e ∈ dfs₁, e.1 ≠ nm) →
      findField (dfs₁ ++ (nm, off, ty) :: dfs₂) nm = some (nm, off, ty))
    ∧ (∀ (dcs₁ : List (String × Nat × TypeDesc)) (nm : String) (tag : Nat) (pd : TypeDesc)
        (dcs₂ : List (String × Nat × TypeDesc)),
      (∀ e ∈ dcs₁, e.1 ≠ nm) →
      findCtor (dcs₁ ++ (nm, tag, pd) :: dcs₂) nm = some (nm, tag, pd))
    ∧ (∀ (fname : String) (fty : CTarget) (fs : List (String × CTarget))
        (dfs : List (String × Nat × TypeDesc)) (off : Nat) (dty : TypeDesc),
      findField dfs fname = some (fname, off, dty) →
      buildFields ((fname, fty) :: fs) dfs =
        (buildPlan fty dty).bind (fun p =>
          (buildFields fs dfs).map (fun rest => (off, p) :: rest)))
    ∧ (∀ (cname : String) (cid : Nat) (cty : CTarget) (cs : List (String × Nat × CTarget))
        (dcs : List (String × Nat × TypeDesc)) (tag : Nat) (pdesc : TypeDesc)
        (st : VariantConv),
      findCtor dcs cname = some (cname, tag, pdesc) →
      buildCtors ((cname, cid, cty) :: cs) dcs st =
        (buildPlan cty pdesc).bind (fun p => buildCtors cs dcs
          ⟨insertTag st.ctors tag (cid, p),
            alignTo 4 (max st.maxAlign (alignOfTy pdesc)),
            max st.maxAlign (alignOfTy pdesc)⟩)) := by
  refine ⟨?_, ?_, ?_, ?_⟩
  · intro dfs₁ nm off ty dfs₂ hne
    induction dfs₁ with
    | nil =>
        simp only [List.nil_append, findField, List.find?]
        rw [show ((nm, off, ty) : String × Nat × TypeDesc).1 == nm from by simp]
    | cons e es ih =>
        have hene : e.1 ≠ nm := hne e (List.mem_cons_self _ _)
        simp only [List.cons_append, findField, List.find?]
        rw [show (e.1 == nm) = false from by simpa using hene]
        exact ih (fun g hg => hne g (List.mem_cons_of_mem _ hg))
  · intro dcs₁ nm tag pd dcs₂ hne
    induction dcs₁ with
    | nil =>
        simp only [List.nil_append, findCtor, List.find?]
        rw [show ((nm, tag, pd) : String × Nat × TypeDesc).1 == nm from by simp]
    | cons e es ih =>
        have hene : e.1 ≠ nm := hne e (List.mem_cons_self _ _)
        simp only [List.cons_append, findCtor, List.find?]
        rw [show (e.1 == nm) = false from by simpa using hene]
        exact ih (fun g hg => hne g (List.mem_cons_of_mem _ hg))
  · intro fname fty fs dfs off dty hfind
    simp only [buildFields, hfind]
    cases buildPlan fty dty with
    | ok p =>
        cases buildFields fs dfs with
        | ok rest => rfl
        | error err => rfl
    | error err => rfl
  · intro cname cid cty cs dcs tag pdesc st hfind
    simp only [buildCtors, hfind]
    cases buildPlan cty pdesc with
    | ok p => rfl
    | error err => rfl

/--
  C10 witness: with duplicate descriptor fields named a at offsets 0
  and 8, the plan uses the first (offset 0, int type): converting a
  buffer whose offset-0 int is 7 yields 7, not the byte at offset 8;
  likewise the first of two duplicate constructors wins.
-/
theorem c10_duplicate_first_wins_witness :
    findField [("a", 0, TypeDesc.prim "int"), ("a", 8, TypeDesc.prim "char")] "a" =
      some ("a", 0, TypeDesc.prim "int") ∧
    findCtor [("Ok", 2, TypeDesc.prim "int"), ("Ok", 5, TypeDesc.prim "char")] "Ok" =
      some ("Ok", 2, TypeDesc.prim "int") ∧
    runConv (.record [("a", .prim .ci32)])
      (.struct [("a", 0, .prim "int"), ("a", 8, .prim "char")])
      (bytesOf [7, 0, 0, 0, 0, 0, 0, 0, 99]) = .ok (some (.record [.prim 7])) := by
  refine ⟨?_, ?_, by rfl⟩
  · exact c10_duplicate_first_wins.1 [] "a" 0 (TypeDesc.prim "int")
      [("a", 8, TypeDesc.prim "char")] (by intro e he; cases he)
  · exact c10_duplicate_first_wins.2.1 [] "Ok" 2 (TypeDesc.prim "int")
      [("Ok", 5, TypeDesc.prim "char")] (by intro e he; cases he)
